import Mathlib

/-!
Verification of the geohash-int-rs core (src/bits.rs, src/geohash.rs).

Machine integers (u32, u64, u8) are modelled as `Nat` with explicit `% 2^w`
wherever the Rust semantics can wrap; comments at each site record whether
debug builds of Rust would instead panic (this development uses the wrapping
semantics of release builds, which is also what the spec describes for the
neighbor arithmetic).

IEEE-754 floating point (f32 / f64) is modelled exactly: a float is either
NaN, an infinity, or a finite value carried as the exact rational it denotes;
arithmetic rounds the exact rational result to the target format with
round-to-nearest, ties-to-even.  Rationals are represented by a small
kernel-reducible fraction type `Q` (Mathlib's `ℚ` normalizes through
operations that the kernel cannot unfold, which would block `decide`);
rounding returns the canonical dyadic representation, so equality of rounded
values is structural equality.  Signed zeros are collapsed to 0, which no
operation this program performs on its results can distinguish.
-/

namespace Geohash

/-- An exact fraction `num / (dm1 + 1)`.  Storing the denominator minus one
keeps every inhabitant a genuine rational (denominator never 0). -/
structure Q where
  num : ℤ
  dm1 : ℕ
deriving DecidableEq, Repr

/-- The (always positive) denominator. -/
def Q.den (q : Q) : ℕ := q.dm1 + 1

/-- Build `n / d` (callers pass `d ≥ 1`). -/
def Q.frac (n : ℤ) (d : ℕ) : Q := ⟨n, d - 1⟩

/-- Embed an integer. -/
def Q.intVal (n : ℤ) : Q := ⟨n, 0⟩

/-- The value of a `Q` as a Mathlib rational (used only in specifications). -/
def Q.toRat (q : Q) : ℚ := (q.num : ℚ) / (q.den : ℚ)

/-- Exact addition (no normalization). -/
def Q.add (a b : Q) : Q := Q.frac (a.num * b.den + b.num * a.den) (a.den * b.den)

/-- Exact subtraction. -/
def Q.sub (a b : Q) : Q := Q.frac (a.num * b.den - b.num * a.den) (a.den * b.den)

/-- Exact multiplication. -/
def Q.mul (a b : Q) : Q := Q.frac (a.num * b.num) (a.den * b.den)

/-- Exact division (callers guard against a zero divisor). -/
def Q.div (a b : Q) : Q :=
  if 0 ≤ b.num then Q.frac (a.num * b.den) (a.den * b.num.natAbs)
  else Q.frac (-(a.num * b.den)) (a.den * b.num.natAbs)

/-- Decide `a ≤ b` by cross multiplication (denominators are positive). -/
def Q.ble (a b : Q) : Bool := a.num * b.den ≤ b.num * a.den

/-- Decide `a < b` by cross multiplication. -/
def Q.blt (a b : Q) : Bool := a.num * b.den < b.num * a.den

/-- `⌊q⌋`. -/
def Q.floor (q : Q) : ℤ := Int.fdiv q.num q.den

/-- Fuel-driven `⌊log₂ n⌋` (exact once `fuel ≥ n`); structural recursion
keeps it kernel-reducible for `decide`. -/
def lg2F : Nat → Nat → Nat
  | 0, _ => 0
  | fuel + 1, n => if n ≤ 1 then 0 else lg2F fuel (n / 2) + 1

/-- `⌊log₂ n⌋` for positive `n` (0 at 0). -/
def natLog2 (n : Nat) : Nat := lg2F n n

/-- Fuel-driven 2-adic valuation of a positive natural. -/
def twoAdicF : Nat → Nat → Nat
  | 0, _ => 0
  | fuel + 1, n => if n = 0 then 0 else if n % 2 = 0 then twoAdicF fuel (n / 2) + 1 else 0

/-- The number of factors of 2 in `n` (0 at 0). -/
def twoAdic (n : Nat) : Nat := twoAdicF n n

/-- Is `|q| < 2^k`?  (Cross multiplication against a power of two.) -/
def Q.absLtPow2 (q : Q) (k : ℤ) : Bool :=
  if 0 ≤ k then q.num.natAbs < 2 ^ k.toNat * q.den
  else q.num.natAbs * 2 ^ (-k).toNat < q.den

/-- `⌊log₂ |q|⌋` of a nonzero `q`. -/
def Q.log2 (q : Q) : ℤ :=
  let e : ℤ := (natLog2 q.num.natAbs : ℤ) - (natLog2 q.den : ℤ)
  if q.absLtPow2 e then e - 1 else e

/-- Exact `q / 2^k`. -/
def Q.divPow2 (q : Q) (k : ℤ) : Q :=
  if 0 ≤ k then Q.frac q.num (q.den * 2 ^ k.toNat)
  else Q.frac (q.num * 2 ^ (-k).toNat) q.den

/-- Round a `Q` to an integer: to nearest, ties to even. -/
def Q.rne (x : Q) : ℤ :=
  let f := x.floor
  let twiceFrac : ℤ := 2 * (x.num - f * x.den)
  if twiceFrac < x.den then f
  else if (x.den : ℤ) < twiceFrac then f + 1
  else if f % 2 = 0 then f else f + 1

/-- The canonical dyadic representation of `n * 2^k` (odd numerator or
denominator 1; zero is `0/1`). -/
def dyadic (n : ℤ) (k : ℤ) : Q :=
  if n = 0 then Q.intVal 0
  else if 0 ≤ k then Q.intVal (n * 2 ^ k.toNat)
  else
    let t := min (twoAdic n.natAbs) (-k).toNat
    Q.frac (Int.fdiv n (2 ^ t)) (2 ^ ((-k).toNat - t))

/-- Is `2^p ≤ |n * 2^k|`?  (Overflow test for rounding.) -/
def pow2LeAbsMul (p : ℕ) (n : ℤ) (k : ℤ) : Bool :=
  if 0 ≤ k then 2 ^ p ≤ n.natAbs * 2 ^ k.toNat
  else 2 ^ p * 2 ^ (-k).toNat ≤ n.natAbs

/-- An IEEE-754 floating point datum: NaN, an infinity, or a finite value
represented by the exact rational number it denotes. -/
inductive FP where
  | nan : FP
  | posInf : FP
  | negInf : FP
  | finite (q : Q) : FP
deriving DecidableEq, Repr

/-- Round an exact rational to the IEEE binary format with `m` significand
bits, minimum exponent `emin` and maximum exponent `emax` (round to nearest,
ties to even; overflow to infinity; subnormals handled by flooring the
scale exponent at `emin - (m - 1)`). -/
def rnd (m : ℕ) (emin emax : ℤ) (q : Q) : FP :=
  if q.num = 0 then .finite (Q.intVal 0) else
  let e := q.log2
  let k := max (e - (m - 1 : ℤ)) (emin - (m - 1 : ℤ))
  let n := (q.divPow2 k).rne
  if pow2LeAbsMul (emax + 1).toNat n k then (if q.num < 0 then .negInf else .posInf)
  else .finite (dyadic n k)

/-- Rounding to f32 (binary32). -/
def rnd32 (q : Q) : FP := rnd 24 (-126) 127 q

/-- Rounding to f64 (binary64). -/
def rnd64 (q : Q) : FP := rnd 53 (-1022) 1023 q

/-- IEEE `<=` as computed by Rust's `PartialOrd` on floats: any comparison
with NaN is false; infinities compare as extreme elements. -/
def FP.le : FP → FP → Bool
  | .nan, _ => false
  | _, .nan => false
  | .negInf, _ => true
  | _, .negInf => false
  | _, .posInf => true
  | .posInf, _ => false
  | .finite a, .finite b => a.ble b

/-- IEEE `<` (false on any NaN operand). -/
def FP.lt : FP → FP → Bool
  | .nan, _ => false
  | _, .nan => false
  | .negInf, .negInf => false
  | .negInf, _ => true
  | _, .negInf => false
  | .posInf, _ => false
  | _, .posInf => true
  | .finite a, .finite b => a.blt b

/-- f32 subtraction. -/
def FP.sub32 : FP → FP → FP
  | .nan, _ => .nan
  | _, .nan => .nan
  | .posInf, .posInf => .nan
  | .negInf, .negInf => .nan
  | .posInf, _ => .posInf
  | .negInf, _ => .negInf
  | .finite _, .posInf => .negInf
  | .finite _, .negInf => .posInf
  | .finite a, .finite b => rnd32 (a.sub b)

/-- f32 addition. -/
def FP.add32 : FP → FP → FP
  | .nan, _ => .nan
  | _, .nan => .nan
  | .posInf, .negInf => .nan
  | .negInf, .posInf => .nan
  | .posInf, _ => .posInf
  | .negInf, _ => .negInf
  | .finite _, .posInf => .posInf
  | .finite _, .negInf => .negInf
  | .finite a, .finite b => rnd32 (a.add b)

/-- f32 multiplication. -/
def FP.mul32 : FP → FP → FP
  | .nan, _ => .nan
  | _, .nan => .nan
  | .posInf, .posInf => .posInf
  | .posInf, .negInf => .negInf
  | .negInf, .posInf => .negInf
  | .negInf, .negInf => .posInf
  | .posInf, .finite b => if b.num = 0 then .nan else if 0 < b.num then .posInf else .negInf
  | .negInf, .finite b => if b.num = 0 then .nan else if 0 < b.num then .negInf else .posInf
  | .finite a, .posInf => if a.num = 0 then .nan else if 0 < a.num then .posInf else .negInf
  | .finite a, .negInf => if a.num = 0 then .nan else if 0 < a.num then .negInf else .posInf
  | .finite a, .finite b => rnd32 (a.mul b)

/-- f32 division (the program only divides by the nonzero constants
produced from 180 and 360). -/
def FP.div32 : FP → FP → FP
  | .nan, _ => .nan
  | _, .nan => .nan
  | .posInf, .posInf => .nan
  | .posInf, .negInf => .nan
  | .negInf, .posInf => .nan
  | .negInf, .negInf => .nan
  | .posInf, .finite b => if 0 ≤ b.num then .posInf else .negInf
  | .negInf, .finite b => if 0 ≤ b.num then .negInf else .posInf
  | .finite _, .posInf => .finite (Q.intVal 0)
  | .finite _, .negInf => .finite (Q.intVal 0)
  | .finite a, .finite b =>
      if b.num = 0 then (if a.num = 0 then .nan else if 0 < a.num then .posInf else .negInf)
      else rnd32 (a.div b)

/-- f64 multiplication. -/
def FP.mul64 : FP → FP → FP
  | .nan, _ => .nan
  | _, .nan => .nan
  | .posInf, .posInf => .posInf
  | .posInf, .negInf => .negInf
  | .negInf, .posInf => .negInf
  | .negInf, .negInf => .posInf
  | .posInf, .finite b => if b.num = 0 then .nan else if 0 < b.num then .posInf else .negInf
  | .negInf, .finite b => if b.num = 0 then .nan else if 0 < b.num then .negInf else .posInf
  | .finite a, .posInf => if a.num = 0 then .nan else if 0 < a.num then .posInf else .negInf
  | .finite a, .negInf => if a.num = 0 then .nan else if 0 < a.num then .negInf else .posInf
  | .finite a, .finite b => rnd64 (a.mul b)

/-- Rust `f32 as f64`: exact (every finite f32 value is an f64 value). -/
def FP.toF64 (x : FP) : FP := x

/-- Rust `f64 as u32`: truncate toward zero, saturating; NaN goes to 0. -/
def FP.toU32 : FP → Nat
  | .nan => 0
  | .posInf => 2 ^ 32 - 1
  | .negInf => 0
  | .finite q => if q.num < 0 then 0 else min (2 ^ 32 - 1) q.floor.toNat

/-- Rust `u32 as f32` (rounds to nearest for values above 2^24). -/
def u32ToF32 (n : Nat) : FP := rnd32 (Q.intVal n)

/-- Rust `u64 as f64`. -/
def u64ToF64 (n : Nat) : FP := rnd64 (Q.intVal n)

/-! ## src/bits.rs -/

/-- `fn spread(x: u32) -> u64` — five shift-and-mask rounds placing the bits
of `x` at even positions.  All intermediates stay below `2^64`, so plain `Nat`
arithmetic coincides with the `u64` arithmetic of the source. -/
def spread (x : Nat) : Nat :=
  let x1 := (x ||| (x <<< 16)) &&& 0x0000FFFF0000FFFF
  let x2 := (x1 ||| (x1 <<< 8)) &&& 0x00FF00FF00FF00FF
  let x3 := (x2 ||| (x2 <<< 4)) &&& 0x0F0F0F0F0F0F0F0F
  let x4 := (x3 ||| (x3 <<< 2)) &&& 0x3333333333333333
  let x5 := (x4 ||| (x4 <<< 1)) &&& 0x5555555555555555
  x5

/-- `pub fn interleave64(lat: u32, lng: u32) -> u64`. -/
def interleave64 (lat lng : Nat) : Nat :=
  (spread lng <<< 1) ||| spread lat

/-- `fn squash(x: u64) -> u32` — inverse shift-and-mask rounds extracting the
bits at even positions. -/
def squash (x : Nat) : Nat :=
  let x0 := x &&& 0x5555555555555555
  let x1 := (x0 ||| (x0 >>> 1)) &&& 0x3333333333333333
  let x2 := (x1 ||| (x1 >>> 2)) &&& 0x0F0F0F0F0F0F0F0F
  let x3 := (x2 ||| (x2 >>> 4)) &&& 0x00FF00FF00FF00FF
  let x4 := (x3 ||| (x3 >>> 8)) &&& 0x0000FFFF0000FFFF
  let x5 := (x4 ||| (x4 >>> 16)) &&& 0x00000000FFFFFFFF
  x5

/-- `pub fn deinterleave64(hash: u64) -> (u32, u32)` — note the source
returns `(lng, lat)`. -/
def deinterleave64 (hash : Nat) : Nat × Nat :=
  (squash (hash >>> 1), squash hash)

/-! ## src/geohash.rs -/

/-- `const LAT_MIN: f32 = -90f32;` -/
def LAT_MIN : FP := .finite (Q.intVal (-90))

/-- `const LAT_MAX: f32 = 90f32;` -/
def LAT_MAX : FP := .finite (Q.intVal 90)

/-- `const LNG_MIN: f32 = -180f32;` -/
def LNG_MIN : FP := .finite (Q.intVal (-180))

/-- `const LNG_MAX: f32 = 180f32;` -/
def LNG_MAX : FP := .finite (Q.intVal 180)

/-- `std::ops::Range<f32>` (field `end` is called `stop` here: `end` is a
reserved word in Lean). -/
structure RangeF where
  start : FP
  stop : FP
deriving DecidableEq, Repr

/-- `const LAT_RNG: Range<f32>`. -/
def LAT_RNG : RangeF := ⟨LAT_MIN, LAT_MAX⟩

/-- `const LNG_RNG: Range<f32>`. -/
def LNG_RNG : RangeF := ⟨LNG_MIN, LNG_MAX⟩

/-- `Range::<f32>::contains`: `start <= item && item < end`. -/
def RangeF.containsF (r : RangeF) (x : FP) : Bool :=
  FP.le r.start x && FP.lt x r.stop

/-- `RangeExtension::length for Range<f32>`: `end - start`. -/
def RangeF.length (r : RangeF) : FP := FP.sub32 r.stop r.start

/-- `pub enum Direction`. -/
inductive Direction where
  | North | East | South | West | NorthEast | SouthEast | SouthWest | NorthWest
deriving DecidableEq, Repr

/-- `pub struct Coord { latitude: f32, longitude: f32 }`. -/
structure Coord where
  latitude : FP
  longitude : FP
deriving DecidableEq, Repr

/-- `Coord::new`: panics (modelled as `none`) unless both coordinates are in
their half-open ranges. -/
def Coord.new (latitude longitude : FP) : Option Coord :=
  if !(LAT_RNG.containsF latitude) then none
  else if !(LNG_RNG.containsF longitude) then none
  else some ⟨latitude, longitude⟩

/-- `pub struct Area { lat_range: Range<f32>, lng_range: Range<f32> }`. -/
structure Area where
  lat_range : RangeF
  lng_range : RangeF
deriving DecidableEq, Repr

/-- `Area::contains`. -/
def Area.contains (a : Area) (c : Coord) : Bool :=
  a.lat_range.containsF c.latitude && a.lng_range.containsF c.longitude

/-- `pub struct GeoBits { bits: u64, precision: u8 }`. -/
structure GeoBits where
  bits : Nat
  precision : Nat
deriving DecidableEq, Repr

/-- `const LAT_BITS: u64 = 0x5555555555555555;` -/
def LAT_BITS : Nat := 0x5555555555555555

/-- `const LNG_BITS: u64 = 0xAAAAAAAAAAAAAAAA;` -/
def LNG_BITS : Nat := 0xAAAAAAAAAAAAAAAA

/-- `GeoBits::from(coord, precision)`: panics (modelled as `none`) unless
`1 <= precision <= 32`; otherwise scales both coordinates to `[0,1)` in f32,
converts to fixed point through f64, truncates to u32 (a saturating cast in
Rust) and interleaves.  (`from` is reserved in Lean, hence `fromCoord`.) -/
def GeoBits.fromCoord (coord : Coord) (precision : Nat) : Option GeoBits :=
  if precision = 0 || precision > 32 then none
  else
    let lat32 := FP.div32 (FP.sub32 coord.latitude LAT_MIN) LAT_RNG.length
    let lng32 := FP.div32 (FP.sub32 coord.longitude LNG_MIN) LNG_RNG.length
    let lat64 := FP.mul64 lat32.toF64 (u64ToF64 (1 <<< precision))
    let lng64 := FP.mul64 lng32.toF64 (u64ToF64 (1 <<< precision))
    let lat := lat64.toU32
    let lng := lng64.toU32
    some { bits := interleave64 lat lng, precision := precision }

/-- `GeoBits::move_x`: steps the longitude (odd-position) bit field by one
unit.  The `u64` add/sub wraps mod `2^64` (release semantics; a debug build
would panic at the wrap edge of the field). -/
def GeoBits.move_x (g : GeoBits) (left : Bool) : GeoBits :=
  let lng := g.bits &&& LNG_BITS
  let lat := g.bits &&& LAT_BITS
  let num_unused_bits := 64 - g.precision * 2
  let tmp := LAT_BITS >>> num_unused_bits
  let lng' := if left then ((lng ||| tmp) + 2 ^ 64 - (tmp + 1)) % 2 ^ 64
              else (lng + (tmp + 1)) % 2 ^ 64
  let lng'' := lng' &&& (LNG_BITS >>> num_unused_bits)
  { bits := lng'' ||| lat, precision := g.precision }

/-- `GeoBits::move_y`: steps the latitude (even-position) bit field by one
unit; wrap conventions as in `move_x`. -/
def GeoBits.move_y (g : GeoBits) (bottom : Bool) : GeoBits :=
  let lng := g.bits &&& LNG_BITS
  let lat := g.bits &&& LAT_BITS
  let num_unused_bits := 64 - g.precision * 2
  let tmp := LNG_BITS >>> num_unused_bits
  let lat' := if bottom then ((lat ||| tmp) + 2 ^ 64 - (tmp + 1)) % 2 ^ 64
              else (lat + (tmp + 1)) % 2 ^ 64
  let lat'' := lat' &&& (LAT_BITS >>> num_unused_bits)
  { bits := lng ||| lat'', precision := g.precision }

/-- `GeoBits::get_neighbor` (diagonals compose one y-move and one x-move, as
the sequential mutations of the source do). -/
def GeoBits.get_neighbor (g : GeoBits) (direction : Direction) : GeoBits :=
  match direction with
  | .North => g.move_y false
  | .East => g.move_x false
  | .South => g.move_y true
  | .West => g.move_x true
  | .NorthEast => (g.move_y false).move_x false
  | .SouthEast => (g.move_y true).move_x false
  | .SouthWest => (g.move_y true).move_x true
  | .NorthWest => (g.move_y false).move_x true

/-- `GeoBits::next_leftbottom`: `bits << 2` wraps mod `2^64` (u64 shifts
discard high bits silently in both Rust profiles); `precision + 1` is a `u8`
addition, wrapping mod 256 (a debug build would panic at 255). -/
def GeoBits.next_leftbottom (g : GeoBits) : GeoBits :=
  { bits := (g.bits <<< 2) % 2 ^ 64, precision := (g.precision + 1) % 256 }

/-- `GeoBits::next_rightbottom`: `(bits << 2) + 2`. -/
def GeoBits.next_rightbottom (g : GeoBits) : GeoBits :=
  { bits := (g.bits <<< 2) % 2 ^ 64 + 2, precision := (g.precision + 1) % 256 }

/-- `GeoBits::next_lefttop`: `(bits << 2) + 1`. -/
def GeoBits.next_lefttop (g : GeoBits) : GeoBits :=
  { bits := (g.bits <<< 2) % 2 ^ 64 + 1, precision := (g.precision + 1) % 256 }

/-- `GeoBits::next_righttop`: `(bits << 2) + 3`. -/
def GeoBits.next_righttop (g : GeoBits) : GeoBits :=
  { bits := (g.bits <<< 2) % 2 ^ 64 + 3, precision := (g.precision + 1) % 256 }

/-- `impl Into<Area> for GeoBits`.  `1u32 << precision` masks the shift
amount mod 32 (release semantics; a debug build panics when
`precision >= 32`), and the `u32` increment `lat + 1` / `lng + 1` wraps mod
`2^32`. -/
def GeoBits.toArea (g : GeoBits) : Area :=
  let dz := deinterleave64 g.bits
  let lng := dz.1
  let lat := dz.2
  let lat_scale : FP := .finite (Q.intVal 180)
  let lng_scale : FP := .finite (Q.intVal 360)
  let float_scale := u32ToF32 (1 <<< (g.precision % 32))
  let lat_range : RangeF :=
    { start := FP.add32 LAT_MIN (FP.mul32 (FP.div32 (u32ToF32 lat) float_scale) lat_scale)
      stop := FP.add32 LAT_MIN (FP.mul32 (FP.div32 (u32ToF32 ((lat + 1) % 2 ^ 32)) float_scale) lat_scale) }
  let lng_range : RangeF :=
    { start := FP.add32 LNG_MIN (FP.mul32 (FP.div32 (u32ToF32 lng) float_scale) lng_scale)
      stop := FP.add32 LNG_MIN (FP.mul32 (FP.div32 (u32ToF32 ((lng + 1) % 2 ^ 32)) float_scale) lng_scale) }
  { lat_range := lat_range, lng_range := lng_range }

/-! ## Specification-side definitions -/

/-- Recursive specification of bit spreading: the bits of `v` placed at even
positions (`spreadR v = Σ bitᵢ(v)·4^i`). -/
def spreadR (v : Nat) : Nat :=
  if h : v = 0 then 0 else 4 * spreadR (v / 2) + v % 2
termination_by v
decreasing_by exact Nat.div_lt_self (Nat.pos_of_ne_zero h) one_lt_two

/-- The even-position mask of width `2p`: bits `0, 2, …, 2p-2`. -/
def evenM : Nat → Nat
  | 0 => 0
  | p + 1 => 4 * evenM p + 1

/-- The odd-position mask of width `2p`: bits `1, 3, …, 2p-1`. -/
def oddM (p : Nat) : Nat := 2 * evenM p

/-- Membership of an f32 datum in a half-open rational interval, as the spec
states it: NaN and infinities are in no range. -/
def FP.inHalfOpen (lo hi : ℚ) : FP → Prop
  | .finite q => lo ≤ q.toRat ∧ q.toRat < hi
  | _ => False

end Geohash

/-! ## Bitwise toolkit and spread/squash theory -/

namespace Geohash

theorem and_digit {k b d : ℕ} (a c : ℕ) (hb : b < 2 ^ k) (hd : d < 2 ^ k) :
    (2 ^ k * a + b) &&& (2 ^ k * c + d) = 2 ^ k * (a &&& c) + (b &&& d) := by
  apply Nat.eq_of_testBit_eq
  intro i
  rw [Nat.testBit_and, Nat.testBit_mul_pow_two_add _ hb, Nat.testBit_mul_pow_two_add _ hd,
    Nat.testBit_mul_pow_two_add _ (Nat.and_lt_two_pow b hd)]
  by_cases h : i < k <;> simp [h, Nat.testBit_and]

theorem or_digit {k b d : ℕ} (a c : ℕ) (hb : b < 2 ^ k) (hd : d < 2 ^ k) :
    (2 ^ k * a + b) ||| (2 ^ k * c + d) = 2 ^ k * (a ||| c) + (b ||| d) := by
  apply Nat.eq_of_testBit_eq
  intro i
  rw [Nat.testBit_or, Nat.testBit_mul_pow_two_add _ hb, Nat.testBit_mul_pow_two_add _ hd,
    Nat.testBit_mul_pow_two_add _ (Nat.or_lt_two_pow hb hd)]
  by_cases h : i < k <;> simp [h, Nat.testBit_or]

theorem and_four (a c : ℕ) {b d : ℕ} (hb : b < 4) (hd : d < 4) :
    (4 * a + b) &&& (4 * c + d) = 4 * (a &&& c) + (b &&& d) := by
  have := and_digit (k := 2) a c (b := b) (d := d) (by omega) (by omega)
  simpa using this

theorem or_four (a c : ℕ) {b d : ℕ} (hb : b < 4) (hd : d < 4) :
    (4 * a + b) ||| (4 * c + d) = 4 * (a ||| c) + (b ||| d) := by
  have := or_digit (k := 2) a c (b := b) (d := d) (by omega) (by omega)
  simpa using this

theorem and_two (a c : ℕ) {b d : ℕ} (hb : b < 2) (hd : d < 2) :
    (2 * a + b) &&& (2 * c + d) = 2 * (a &&& c) + (b &&& d) := by
  have := and_digit (k := 1) a c (b := b) (d := d) (by omega) (by omega)
  simpa using this

/-- Reducing mod `2^n` does not change a conjunction with a mask below `2^n`. -/
theorem mod_two_pow_and {n : ℕ} (x : ℕ) {m : ℕ} (hm : m < 2 ^ n) :
    (x % 2 ^ n) &&& m = x &&& m := by
  apply Nat.eq_of_testBit_eq
  intro i
  rw [Nat.testBit_and, Nat.testBit_and, Nat.testBit_mod_two_pow]
  by_cases h : i < n
  · simp [h]
  · have : m < 2 ^ i := lt_of_lt_of_le hm (Nat.pow_le_pow_right (by omega) (by omega))
    simp [h, Nat.testBit_lt_two_pow this]

theorem testBit_of_ge {x i : ℕ} (hx : x < 2 ^ 64) (h : 64 ≤ i) : x.testBit i = false :=
  Nat.testBit_lt_two_pow (lt_of_lt_of_le hx (Nat.pow_le_pow_right (by omega) h))

theorem mask5555_testBit (i : ℕ) :
    (0x5555555555555555 : ℕ).testBit i = decide (i < 64 ∧ i % 2 = 0) := by
  by_cases h : i < 64
  · have hall : ∀ j, j < 64 → (0x5555555555555555 : ℕ).testBit j = decide (j % 2 = 0) := by decide
    rw [hall i h]
    exact decide_eq_decide.mpr (by omega)
  · have hz : (0x5555555555555555 : ℕ).testBit i = false := testBit_of_ge (by norm_num) (by omega)
    simp [hz, h]

theorem maskAAAA_testBit (i : ℕ) :
    (0xAAAAAAAAAAAAAAAA : ℕ).testBit i = decide (i < 64 ∧ i % 2 = 1) := by
  by_cases h : i < 64
  · have hall : ∀ j, j < 64 → (0xAAAAAAAAAAAAAAAA : ℕ).testBit j = decide (j % 2 = 1) := by decide
    rw [hall i h]
    exact decide_eq_decide.mpr (by omega)
  · have hz : (0xAAAAAAAAAAAAAAAA : ℕ).testBit i = false := testBit_of_ge (by norm_num) (by omega)
    simp [hz, h]

theorem mask3333_testBit (i : ℕ) :
    (0x3333333333333333 : ℕ).testBit i = decide (i < 64 ∧ i % 4 < 2) := by
  by_cases h : i < 64
  · have hall : ∀ j, j < 64 → (0x3333333333333333 : ℕ).testBit j = decide (j % 4 < 2) := by decide
    rw [hall i h]
    exact decide_eq_decide.mpr (by omega)
  · have hz : (0x3333333333333333 : ℕ).testBit i = false := testBit_of_ge (by norm_num) (by omega)
    simp [hz, h]

theorem mask0F0F_testBit (i : ℕ) :
    (0x0F0F0F0F0F0F0F0F : ℕ).testBit i = decide (i < 64 ∧ i % 8 < 4) := by
  by_cases h : i < 64
  · have hall : ∀ j, j < 64 → (0x0F0F0F0F0F0F0F0F : ℕ).testBit j = decide (j % 8 < 4) := by decide
    rw [hall i h]
    exact decide_eq_decide.mpr (by omega)
  · have hz : (0x0F0F0F0F0F0F0F0F : ℕ).testBit i = false := testBit_of_ge (by norm_num) (by omega)
    simp [hz, h]

theorem mask00FF_testBit (i : ℕ) :
    (0x00FF00FF00FF00FF : ℕ).testBit i = decide (i < 64 ∧ i % 16 < 8) := by
  by_cases h : i < 64
  · have hall : ∀ j, j < 64 → (0x00FF00FF00FF00FF : ℕ).testBit j = decide (j % 16 < 8) := by decide
    rw [hall i h]
    exact decide_eq_decide.mpr (by omega)
  · have hz : (0x00FF00FF00FF00FF : ℕ).testBit i = false := testBit_of_ge (by norm_num) (by omega)
    simp [hz, h]

theorem maskFFFF_testBit (i : ℕ) :
    (0x0000FFFF0000FFFF : ℕ).testBit i = decide (i < 64 ∧ i % 32 < 16) := by
  by_cases h : i < 64
  · have hall : ∀ j, j < 64 → (0x0000FFFF0000FFFF : ℕ).testBit j = decide (j % 32 < 16) := by decide
    rw [hall i h]
    exact decide_eq_decide.mpr (by omega)
  · have hz : (0x0000FFFF0000FFFF : ℕ).testBit i = false := testBit_of_ge (by norm_num) (by omega)
    simp [hz, h]

theorem mask32_testBit (i : ℕ) :
    (0x00000000FFFFFFFF : ℕ).testBit i = decide (i < 32) := by
  have : (0x00000000FFFFFFFF : ℕ) = 2 ^ 32 - 1 := by norm_num
  rw [this, Nat.testBit_two_pow_sub_one]

/-- One spread round `(x ||| (x <<< s)) &&& M`, tracked through a bit-level
characterization: if `x` holds `f (φa i)` exactly at the positions where `A`
holds, and each position of `B` receives its bit from exactly one of the two
sources, the masked or-shift holds `f (φb i)` exactly on `B`. -/
theorem stageL (x : ℕ) (f : ℕ → Bool) (s : ℕ) (M : ℕ) (A B : ℕ → Prop) (φa φb : ℕ → ℕ)
    [DecidablePred A] [DecidablePred B]
    (hM : ∀ i, M.testBit i = decide (B i))
    (hx : ∀ i, x.testBit i = (decide (A i) && f (φa i)))
    (hstep : ∀ i, B i →
      (A i ∧ φa i = φb i ∧ ¬(s ≤ i ∧ A (i - s))) ∨
      (¬A i ∧ s ≤ i ∧ A (i - s) ∧ φa (i - s) = φb i)) :
    ∀ i, ((x ||| (x <<< s)) &&& M).testBit i = (decide (B i) && f (φb i)) := by
  intro i
  rw [Nat.testBit_and, Nat.testBit_or, Nat.testBit_shiftLeft, hM, hx, hx]
  by_cases hB : B i
  · rcases hstep i hB with ⟨hA, hφ, hno⟩ | ⟨hA, hs, hA2, hφ⟩
    · by_cases hsi : s ≤ i
      · have : ¬A (i - s) := fun h => hno ⟨hsi, h⟩
        simp [hA, hB, hφ, this]
      · simp [hA, hB, hφ, hsi]
    · simp [hA, hB, hs, hA2, hφ]
  · simp [hB]

/-- One squash round `(x ||| (x >>> s)) &&& M`; companion of `stageL`. -/
theorem stageR (x : ℕ) (f : ℕ → Bool) (s : ℕ) (M : ℕ) (A B : ℕ → Prop) (φa φb : ℕ → ℕ)
    [DecidablePred A] [DecidablePred B]
    (hM : ∀ i, M.testBit i = decide (B i))
    (hx : ∀ i, x.testBit i = (decide (A i) && f (φa i)))
    (hstep : ∀ i, B i →
      (A i ∧ φa i = φb i ∧ ¬A (s + i)) ∨
      (¬A i ∧ A (s + i) ∧ φa (s + i) = φb i)) :
    ∀ i, ((x ||| (x >>> s)) &&& M).testBit i = (decide (B i) && f (φb i)) := by
  intro i
  rw [Nat.testBit_and, Nat.testBit_or, Nat.testBit_shiftRight, hM, hx, hx]
  by_cases hB : B i
  · rcases hstep i hB with ⟨hA, hφ, hno⟩ | ⟨hA, hA2, hφ⟩
    · simp [hA, hB, hφ, hno]
    · simp [hA, hB, hA2, hφ]
  · simp [hB]

/-- Each bit of `spread x` (for `x < 2^32`): bit `2j` of the result is bit
`j` of `x`, odd positions are clear. -/
theorem spread_testBit {x : ℕ} (hx : x < 2 ^ 32) (i : ℕ) :
    (spread x).testBit i = (decide (i < 64 ∧ i % 2 = 0) && x.testBit (i / 2)) := by
  have h0 : ∀ i, x.testBit i = (decide (i < 32) && x.testBit ((fun j => j) i)) := by
    intro i
    by_cases h : i < 32
    · simp [h]
    · have : x.testBit i = false :=
        Nat.testBit_lt_two_pow (lt_of_lt_of_le hx (Nat.pow_le_pow_right (by omega) (by omega)))
      simp [h, this]
  have h1 := stageL x (fun j => x.testBit j) 16 0x0000FFFF0000FFFF
    (fun i => i < 32) (fun i => i < 64 ∧ i % 32 < 16)
    (fun j => j) (fun i => i % 32 + 16 * (i / 32))
    maskFFFF_testBit h0 (by intro i hB; dsimp only; omega)
  have h2 := stageL _ (fun j => x.testBit j) 8 0x00FF00FF00FF00FF
    (fun i => i < 64 ∧ i % 32 < 16) (fun i => i < 64 ∧ i % 16 < 8)
    (fun i => i % 32 + 16 * (i / 32)) (fun i => i % 16 + 8 * (i / 16))
    mask00FF_testBit h1 (by intro i hB; dsimp only; omega)
  have h3 := stageL _ (fun j => x.testBit j) 4 0x0F0F0F0F0F0F0F0F
    (fun i => i < 64 ∧ i % 16 < 8) (fun i => i < 64 ∧ i % 8 < 4)
    (fun i => i % 16 + 8 * (i / 16)) (fun i => i % 8 + 4 * (i / 8))
    mask0F0F_testBit h2 (by intro i hB; dsimp only; omega)
  have h4 := stageL _ (fun j => x.testBit j) 2 0x3333333333333333
    (fun i => i < 64 ∧ i % 8 < 4) (fun i => i < 64 ∧ i % 4 < 2)
    (fun i => i % 8 + 4 * (i / 8)) (fun i => i % 4 + 2 * (i / 4))
    mask3333_testBit h3 (by intro i hB; dsimp only; omega)
  have h5 := stageL _ (fun j => x.testBit j) 1 0x5555555555555555
    (fun i => i < 64 ∧ i % 4 < 2) (fun i => i < 64 ∧ i % 2 = 0)
    (fun i => i % 4 + 2 * (i / 4)) (fun i => i / 2)
    mask5555_testBit h4 (by intro i hB; dsimp only; omega)
  exact h5 i

/-- Each bit of `squash x`: bit `j` of the result is bit `2j` of `x`. -/
theorem squash_testBit (x i : ℕ) :
    (squash x).testBit i = (decide (i < 32) && x.testBit (2 * i)) := by
  have h0 : ∀ i, (x &&& 0x5555555555555555).testBit i =
      (decide (i < 64 ∧ i % 2 = 0) && (fun j => x.testBit (2 * j)) ((fun i => i / 2) i)) := by
    intro i
    rw [Nat.testBit_and, mask5555_testBit]
    by_cases h : i < 64 ∧ i % 2 = 0
    · have h2 : 2 * (i / 2) = i := by omega
      simp [h, h2]
    · simp [h]
  have h1 := stageR _ (fun j => x.testBit (2 * j)) 1 0x3333333333333333
    (fun i => i < 64 ∧ i % 2 = 0) (fun i => i < 64 ∧ i % 4 < 2)
    (fun i => i / 2) (fun i => 2 * (i / 4) + i % 4)
    mask3333_testBit h0 (by intro i hB; dsimp only; omega)
  have h2 := stageR _ (fun j => x.testBit (2 * j)) 2 0x0F0F0F0F0F0F0F0F
    (fun i => i < 64 ∧ i % 4 < 2) (fun i => i < 64 ∧ i % 8 < 4)
    (fun i => 2 * (i / 4) + i % 4) (fun i => 4 * (i / 8) + i % 8)
    mask0F0F_testBit h1 (by intro i hB; dsimp only; omega)
  have h3 := stageR _ (fun j => x.testBit (2 * j)) 4 0x00FF00FF00FF00FF
    (fun i => i < 64 ∧ i % 8 < 4) (fun i => i < 64 ∧ i % 16 < 8)
    (fun i => 4 * (i / 8) + i % 8) (fun i => 8 * (i / 16) + i % 16)
    mask00FF_testBit h2 (by intro i hB; dsimp only; omega)
  have h4 := stageR _ (fun j => x.testBit (2 * j)) 8 0x0000FFFF0000FFFF
    (fun i => i < 64 ∧ i % 16 < 8) (fun i => i < 64 ∧ i % 32 < 16)
    (fun i => 8 * (i / 16) + i % 16) (fun i => 16 * (i / 32) + i % 32)
    maskFFFF_testBit h3 (by intro i hB; dsimp only; omega)
  have h5 := stageR _ (fun j => x.testBit (2 * j)) 16 0x00000000FFFFFFFF
    (fun i => i < 64 ∧ i % 32 < 16) (fun i => i < 32)
    (fun i => 16 * (i / 32) + i % 32) (fun i => i)
    mask32_testBit h4 (by intro i hB; dsimp only; omega)
  exact h5 i

/-- `squash` is bounded by `2^32`. -/
theorem squash_lt (x : ℕ) : squash x < 2 ^ 32 := by
  apply Nat.lt_pow_two_of_testBit
  intro i hi
  rw [squash_testBit]
  have : ¬i < 32 := by omega
  simp [this]

/-- Interleaving then deinterleaving returns the two fields in swapped
order (the source's `deinterleave64` returns `(lng, lat)`). -/
theorem deinterleave64_interleave64 {a b : ℕ} (ha : a < 2 ^ 32) (hb : b < 2 ^ 32) :
    deinterleave64 (interleave64 a b) = (b, a) := by
  unfold deinterleave64 interleave64
  have hfst : squash (((spread b <<< 1) ||| spread a) >>> 1) = b := by
    apply Nat.eq_of_testBit_eq
    intro j
    rw [squash_testBit, Nat.testBit_shiftRight, Nat.testBit_or, Nat.testBit_shiftLeft]
    have e1 : 1 + 2 * j - 1 = 2 * j := by omega
    rw [e1, spread_testBit hb, spread_testBit ha]
    have e2 : 2 * j / 2 = j := by omega
    have e3 : ¬(1 + 2 * j < 64 ∧ (1 + 2 * j) % 2 = 0) := by omega
    rw [e2]
    by_cases h : j < 32
    · have h1 : 2 * j < 64 ∧ 2 * j % 2 = 0 := by omega
      simp [h, h1, e3]
    · have h1 : b.testBit j = false :=
        Nat.testBit_lt_two_pow (lt_of_lt_of_le hb (Nat.pow_le_pow_right (by omega) (by omega)))
      simp [h, h1, e3]
  have hsnd : squash ((spread b <<< 1) ||| spread a) = a := by
    apply Nat.eq_of_testBit_eq
    intro j
    rw [squash_testBit, Nat.testBit_or, Nat.testBit_shiftLeft, spread_testBit hb,
      spread_testBit ha]
    have e2 : 2 * j / 2 = j := by omega
    have e3 : ¬(2 * j - 1 < 64 ∧ (2 * j - 1) % 2 = 0) ∨ ¬1 ≤ 2 * j := by omega
    rw [e2]
    have hb1 : (decide (1 ≤ 2 * j) && (decide (2 * j - 1 < 64 ∧ (2 * j - 1) % 2 = 0) &&
        b.testBit ((2 * j - 1) / 2))) = false := by
      rcases e3 with e3 | e3 <;> simp [e3]
    rw [hb1]
    by_cases h : j < 32
    · have h1 : 2 * j < 64 ∧ 2 * j % 2 = 0 := by omega
      simp [h, h1]
    · have h1 : a.testBit j = false :=
        Nat.testBit_lt_two_pow (lt_of_lt_of_le ha (Nat.pow_le_pow_right (by omega) (by omega)))
      simp [h, h1]
  rw [hfst, hsnd]

/-- `squash` inverts `spread` on 32-bit values. -/
theorem squash_spread {a : ℕ} (ha : a < 2 ^ 32) : squash (spread a) = a := by
  apply Nat.eq_of_testBit_eq
  intro i
  rw [squash_testBit, spread_testBit ha]
  by_cases h : i < 32
  · have h2 : 2 * i / 2 = i := by omega
    simp [h, h2]
    omega
  · have : a.testBit i = false :=
      Nat.testBit_lt_two_pow (lt_of_lt_of_le ha (Nat.pow_le_pow_right (by omega) (by omega)))
    simp [h, this]

end Geohash

namespace Geohash

theorem spreadR_zero : spreadR 0 = 0 := by
  unfold spreadR
  simp

theorem spreadR_two_mul_add (w : ℕ) {c : ℕ} (hc : c < 2) :
    spreadR (2 * w + c) = 4 * spreadR w + c := by
  by_cases h : 2 * w + c = 0
  · have hw : w = 0 := by omega
    have hc0 : c = 0 := by omega
    subst hw
    subst hc0
    simp [spreadR_zero]
  · rw [spreadR]
    have h1 : (2 * w + c) / 2 = w := by omega
    have h2 : (2 * w + c) % 2 = c := by omega
    simp [h, h1, h2]

theorem spreadR_pos : ∀ v : ℕ, 0 < v → 0 < spreadR v := by
  intro v
  induction v using Nat.strong_induction_on with
  | _ v ih =>
    intro hv
    have hdec : v = 2 * (v / 2) + v % 2 := by omega
    rcases Nat.mod_two_eq_zero_or_one v with hc | hc
    · have hw : 0 < v / 2 := by omega
      have := ih (v / 2) (by omega) hw
      calc 0 < 4 * spreadR (v / 2) + v % 2 := by omega
        _ = spreadR (2 * (v / 2) + v % 2) := (spreadR_two_mul_add _ (by omega)).symm
        _ = spreadR v := by rw [← hdec]
    · calc 0 < 4 * spreadR (v / 2) + v % 2 := by omega
        _ = spreadR (2 * (v / 2) + v % 2) := (spreadR_two_mul_add _ (by omega)).symm
        _ = spreadR v := by rw [← hdec]

theorem evenM_succ (p : ℕ) : evenM (p + 1) = 4 * evenM p + 1 := rfl

theorem oddM_succ (p : ℕ) : oddM (p + 1) = 4 * oddM p + 2 := by
  unfold oddM
  rw [evenM_succ]
  ring

theorem evenM_lt : ∀ p : ℕ, evenM p < 2 ^ (2 * p) := by
  intro p
  induction p with
  | zero => simp [evenM]
  | succ p ih =>
    have h2 : 2 ^ (2 * (p + 1)) = 4 * 2 ^ (2 * p) := by ring
    rw [evenM_succ]
    omega

theorem oddM_lt : ∀ p : ℕ, oddM p < 2 ^ (2 * p) := by
  intro p
  induction p with
  | zero => simp [oddM, evenM]
  | succ p ih =>
    have h4 : 2 ^ (2 * (p + 1)) = 4 * 2 ^ (2 * p) := by ring
    rw [oddM_succ]
    omega

theorem spreadR_lt : ∀ p v : ℕ, v < 2 ^ p → spreadR v < 2 ^ (2 * p) := by
  intro p
  induction p with
  | zero =>
    intro v hv
    have : v = 0 := by omega
    subst this
    simp [spreadR_zero]
  | succ p ih =>
    intro v hv
    have h2 : 2 ^ (p + 1) = 2 * 2 ^ p := by ring
    have h4 : 2 ^ (2 * (p + 1)) = 4 * 2 ^ (2 * p) := by ring
    have hdec : v = 2 * (v / 2) + v % 2 := by omega
    have hw : v / 2 < 2 ^ p := by omega
    have := ih (v / 2) hw
    have hsv : spreadR v = 4 * spreadR (v / 2) + v % 2 := by
      conv_lhs => rw [hdec]
      rw [spreadR_two_mul_add _ (by omega)]
    omega

theorem spreadR_full : ∀ p : ℕ, spreadR (2 ^ p - 1) = evenM p := by
  intro p
  induction p with
  | zero => simp [spreadR_zero, evenM]
  | succ p ih =>
    have h2 : 2 ^ (p + 1) = 2 * 2 ^ p := by ring
    have h0 : 0 < 2 ^ p := Nat.pos_pow_of_pos p (by omega)
    have hdec : 2 ^ (p + 1) - 1 = 2 * (2 ^ p - 1) + 1 := by omega
    rw [hdec, spreadR_two_mul_add _ (by omega), ih, evenM_succ]

theorem mod_two_and_one {c : ℕ} (hc : c < 2) : c &&& 1 = c := by
  interval_cases c <;> rfl

/-- The even-width mask absorbs a spread value. -/
theorem spreadR_and_evenM : ∀ p v : ℕ, v < 2 ^ p → spreadR v &&& evenM p = spreadR v := by
  intro p
  induction p with
  | zero =>
    intro v hv
    have : v = 0 := by omega
    subst this
    simp [spreadR_zero]
  | succ p ih =>
    intro v hv
    have h2 : 2 ^ (p + 1) = 2 * 2 ^ p := by ring
    have hdec : v = 2 * (v / 2) + v % 2 := by omega
    have hw : v / 2 < 2 ^ p := by omega
    conv_lhs => rw [hdec]
    conv_rhs => rw [hdec]
    rw [spreadR_two_mul_add _ (by omega), evenM_succ,
      and_four _ _ (by omega) (by omega), ih _ hw, mod_two_and_one (by omega)]

/-- Adding the complementary odd mask does not disturb the even field. -/
theorem add_oddM_and_evenM : ∀ p w : ℕ, w < 2 ^ p →
    (spreadR w + oddM p) &&& evenM p = spreadR w := by
  intro p
  induction p with
  | zero =>
    intro w hw
    have : w = 0 := by omega
    subst this
    simp [spreadR_zero, oddM, evenM]
  | succ p ih =>
    intro w hw
    have h2 : 2 ^ (p + 1) = 2 * 2 ^ p := by ring
    have hdec : w = 2 * (w / 2) + w % 2 := by omega
    have hw2 : w / 2 < 2 ^ p := by omega
    conv_lhs => rw [hdec]
    conv_rhs => rw [hdec]
    rw [spreadR_two_mul_add _ (by omega), oddM_succ, evenM_succ]
    have hre : 4 * spreadR (w / 2) + w % 2 + (4 * oddM p + 2) =
        4 * (spreadR (w / 2) + oddM p) + (w % 2 + 2) := by ring
    rw [hre, and_four _ _ (by omega) (by omega), ih _ hw2]
    rcases Nat.mod_two_eq_zero_or_one w with hc | hc <;> rw [hc] <;> rfl

/-- Adding the complementary even mask does not disturb the odd field. -/
theorem add_evenM_and_oddM : ∀ p w : ℕ, w < 2 ^ p →
    (2 * spreadR w + evenM p) &&& oddM p = 2 * spreadR w := by
  intro p
  induction p with
  | zero =>
    intro w hw
    have : w = 0 := by omega
    subst this
    simp [spreadR_zero, oddM, evenM]
  | succ p ih =>
    intro w hw
    have h2 : 2 ^ (p + 1) = 2 * 2 ^ p := by ring
    have hdec : w = 2 * (w / 2) + w % 2 := by omega
    have hw2 : w / 2 < 2 ^ p := by omega
    conv_lhs => rw [hdec]
    conv_rhs => rw [hdec]
    rw [spreadR_two_mul_add _ (by omega), oddM_succ, evenM_succ]
    have hre : 2 * (4 * spreadR (w / 2) + w % 2) + (4 * evenM p + 1) =
        4 * (2 * spreadR (w / 2) + evenM p) + (2 * (w % 2) + 1) := by ring
    rw [hre, and_four _ _ (by omega) (by omega), ih _ hw2]
    rcases Nat.mod_two_eq_zero_or_one w with hc | hc <;> rw [hc]
    · have hA : (2 * 0 + 1) &&& 2 = 0 := by decide
      rw [hA]
      ring
    · have hA : (2 * 1 + 1) &&& 2 = 2 := by decide
      rw [hA]
      ring

end Geohash

namespace Geohash

theorem spreadR_two_mul (w : ℕ) : spreadR (2 * w) = 4 * spreadR w := by
  have h := spreadR_two_mul_add w (c := 0) (by omega)
  simpa using h

/-- Incrementing an even-position field: adding the complementary odd mask
plus one and re-masking realizes `+1 mod 2^p` on the field value. -/
theorem inc_even : ∀ p v : ℕ, v < 2 ^ p →
    (spreadR v + oddM p + 1) &&& evenM p = spreadR ((v + 1) % 2 ^ p) := by
  intro p
  induction p with
  | zero =>
    intro v hv
    have : v = 0 := by omega
    subst this
    simp [spreadR_zero, oddM, evenM]
  | succ p ih =>
    intro v hv
    have h2 : 2 ^ (p + 1) = 2 * 2 ^ p := by ring
    have hw : v / 2 < 2 ^ p := by omega
    have hdec : v = 2 * (v / 2) + v % 2 := by omega
    have hsv : spreadR v = 4 * spreadR (v / 2) + v % 2 := by
      conv_lhs => rw [hdec]
      rw [spreadR_two_mul_add _ (by omega)]
    rcases Nat.mod_two_eq_zero_or_one v with hc | hc
    · have hv1 : v + 1 < 2 ^ (p + 1) := by omega
      rw [Nat.mod_eq_of_lt hv1]
      have hre : spreadR v + oddM (p + 1) + 1 = 4 * (spreadR (v / 2) + oddM p) + 3 := by
        rw [hsv, oddM_succ, hc]
        ring
      rw [hre, evenM_succ, and_four _ _ (by omega) (by omega), add_oddM_and_evenM p _ hw]
      have h31 : (3 : ℕ) &&& 1 = 1 := by decide
      rw [h31]
      have hv1' : v + 1 = 2 * (v / 2) + 1 := by omega
      rw [hv1', spreadR_two_mul_add _ (by omega)]
    · have hre : spreadR v + oddM (p + 1) + 1 = 4 * (spreadR (v / 2) + oddM p + 1) + 0 := by
        rw [hsv, oddM_succ, hc]
        ring
      rw [hre, evenM_succ, and_four _ _ (by omega) (by omega), ih _ hw]
      have h01 : (0 : ℕ) &&& 1 = 0 := by decide
      rw [h01]
      have hv1 : v + 1 = 2 * (v / 2 + 1) := by omega
      rw [hv1, h2, Nat.mul_mod_mul_left, spreadR_two_mul]
      omega

/-- Incrementing an odd-position field. -/
theorem inc_odd : ∀ p v : ℕ, v < 2 ^ p →
    (2 * spreadR v + evenM p + 1) &&& oddM p = 2 * spreadR ((v + 1) % 2 ^ p) := by
  intro p
  induction p with
  | zero =>
    intro v hv
    have : v = 0 := by omega
    subst this
    simp [spreadR_zero, oddM, evenM]
  | succ p ih =>
    intro v hv
    have h2 : 2 ^ (p + 1) = 2 * 2 ^ p := by ring
    have hw : v / 2 < 2 ^ p := by omega
    have hdec : v = 2 * (v / 2) + v % 2 := by omega
    have hsv : spreadR v = 4 * spreadR (v / 2) + v % 2 := by
      conv_lhs => rw [hdec]
      rw [spreadR_two_mul_add _ (by omega)]
    rcases Nat.mod_two_eq_zero_or_one v with hc | hc
    · have hv1 : v + 1 < 2 ^ (p + 1) := by omega
      rw [Nat.mod_eq_of_lt hv1]
      have hre : 2 * spreadR v + evenM (p + 1) + 1 =
          4 * (2 * spreadR (v / 2) + evenM p) + 2 := by
        rw [hsv, evenM_succ, hc]
        ring
      rw [hre, oddM_succ, and_four _ _ (by omega) (by omega), add_evenM_and_oddM p _ hw]
      have h22 : (2 : ℕ) &&& 2 = 2 := by decide
      rw [h22]
      have hv1' : v + 1 = 2 * (v / 2) + 1 := by omega
      rw [hv1', spreadR_two_mul_add _ (by omega)]
      ring
    · have hre : 2 * spreadR v + evenM (p + 1) + 1 =
          4 * (2 * spreadR (v / 2) + evenM p + 1) + 0 := by
        rw [hsv, evenM_succ, hc]
        ring
      rw [hre, oddM_succ, and_four _ _ (by omega) (by omega), ih _ hw]
      have h02 : (0 : ℕ) &&& 2 = 0 := by decide
      rw [h02]
      have hv1 : v + 1 = 2 * (v / 2 + 1) := by omega
      rw [hv1, h2, Nat.mul_mod_mul_left, spreadR_two_mul]
      omega

/-- Decrementing a positive even-position field. -/
theorem dec_even : ∀ p v : ℕ, 0 < v → v < 2 ^ p →
    (spreadR v - 1) &&& evenM p = spreadR (v - 1) := by
  intro p
  induction p with
  | zero => intro v hv hv2; omega
  | succ p ih =>
    intro v hv hv2
    have h2 : 2 ^ (p + 1) = 2 * 2 ^ p := by ring
    have hw : v / 2 < 2 ^ p := by omega
    have hdec : v = 2 * (v / 2) + v % 2 := by omega
    have hsv : spreadR v = 4 * spreadR (v / 2) + v % 2 := by
      conv_lhs => rw [hdec]
      rw [spreadR_two_mul_add _ (by omega)]
    rcases Nat.mod_two_eq_zero_or_one v with hc | hc
    · have hwpos : 0 < v / 2 := by omega
      have hspos := spreadR_pos _ hwpos
      have hre : spreadR v - 1 = 4 * (spreadR (v / 2) - 1) + 3 := by omega
      rw [hre, evenM_succ, and_four _ _ (by omega) (by omega), ih _ hwpos hw]
      have h31 : (3 : ℕ) &&& 1 = 1 := by decide
      rw [h31]
      have hv1 : v - 1 = 2 * (v / 2 - 1) + 1 := by omega
      rw [hv1, spreadR_two_mul_add _ (by omega)]
    · have hre : spreadR v - 1 = 4 * spreadR (v / 2) + 0 := by omega
      rw [hre, evenM_succ, and_four _ _ (by omega) (by omega), spreadR_and_evenM p _ hw]
      have h01 : (0 : ℕ) &&& 1 = 0 := by decide
      rw [h01]
      have hv1 : v - 1 = 2 * (v / 2) := by omega
      rw [hv1, spreadR_two_mul]
      omega

/-- Decrementing a positive odd-position field. -/
theorem dec_odd : ∀ p v : ℕ, 0 < v → v < 2 ^ p →
    (2 * spreadR v - 1) &&& oddM p = 2 * spreadR (v - 1) := by
  intro p
  rcases p with _ | p
  · intro v hv hv2
    omega
  · intro v hv hv2
    have h2 : 2 ^ (p + 1) = 2 * 2 ^ p := by ring
    have hw : v / 2 < 2 ^ p := by omega
    have hdec : v = 2 * (v / 2) + v % 2 := by omega
    have hsv : spreadR v = 4 * spreadR (v / 2) + v % 2 := by
      conv_lhs => rw [hdec]
      rw [spreadR_two_mul_add _ (by omega)]
    rcases Nat.mod_two_eq_zero_or_one v with hc | hc
    · have hwpos : 0 < v / 2 := by omega
      have hspos := spreadR_pos _ hwpos
      have hre : 2 * spreadR v - 1 = 4 * (2 * (spreadR (v / 2) - 1) + 1) + 3 := by omega
      rw [hre, oddM_succ, and_four _ _ (by omega) (by omega)]
      have hinner : (2 * (spreadR (v / 2) - 1) + 1) &&& oddM p =
          2 * ((spreadR (v / 2) - 1) &&& evenM p) := by
        unfold oddM
        have := and_two (spreadR (v / 2) - 1) (evenM p) (b := 1) (d := 0) (by omega) (by omega)
        simpa using this
      rw [hinner, dec_even p _ hwpos hw]
      have h32 : (3 : ℕ) &&& 2 = 2 := by decide
      rw [h32]
      have hv1 : v - 1 = 2 * (v / 2 - 1) + 1 := by omega
      rw [hv1, spreadR_two_mul_add _ (by omega)]
      ring
    · have hre : 2 * spreadR v - 1 = 4 * (2 * spreadR (v / 2)) + 1 := by omega
      rw [hre, oddM_succ, and_four _ _ (by omega) (by omega)]
      have hinner : (2 * spreadR (v / 2)) &&& oddM p = 2 * (spreadR (v / 2) &&& evenM p) := by
        unfold oddM
        have := and_two (spreadR (v / 2)) (evenM p) (b := 0) (d := 0) (by omega) (by omega)
        simpa using this
      rw [hinner, spreadR_and_evenM p _ hw]
      have h12 : (1 : ℕ) &&& 2 = 0 := by decide
      rw [h12]
      have hv1 : v - 1 = 2 * (v / 2) := by omega
      rw [hv1, spreadR_two_mul]
      ring

end Geohash

namespace Geohash

theorem spreadR_testBit : ∀ v i : ℕ, (spreadR v).testBit i =
    (decide (i % 2 = 0) && v.testBit (i / 2)) := by
  intro v
  induction v using Nat.strong_induction_on with
  | _ v ih =>
    intro i
    by_cases hv : v = 0
    · subst hv
      simp [spreadR_zero]
    · have hdec : v = 2 * (v / 2) + v % 2 := by omega
      have hsv : spreadR v = 4 * spreadR (v / 2) + v % 2 := by
        conv_lhs => rw [hdec]
        rw [spreadR_two_mul_add _ (by omega)]
      have hc4 : v % 2 < 2 ^ 2 := by omega
      have ht := Nat.testBit_mul_pow_two_add (spreadR (v / 2)) hc4 i
      rw [hsv, show (4 : ℕ) * spreadR (v / 2) + v % 2 = 2 ^ 2 * spreadR (v / 2) + v % 2 by ring,
        ht]
      by_cases hi : i < 2
      · interval_cases i
        · rw [Nat.testBit_zero, Nat.testBit_zero]
          have : v % 2 % 2 = v % 2 := by omega
          rw [this]
          simp
        · have hlt : v % 2 < 2 ^ 1 := by omega
          rw [Nat.testBit_lt_two_pow hlt]
          have : ¬(1 % 2 = 0) := by omega
          simp [this, hi]
      · simp only [if_neg hi]
        rw [ih (v / 2) (by omega) (i - 2)]
        have h1 : (v / 2).testBit ((i - 2) / 2) = v.testBit ((i - 2) / 2 + 1) := by
          rw [Nat.testBit_div_two]
        rw [h1]
        have h2 : (i - 2) / 2 + 1 = i / 2 := by omega
        have h3 : decide ((i - 2) % 2 = 0) = decide (i % 2 = 0) :=
          decide_eq_decide.mpr (by omega)
        rw [h2, h3]

theorem evenM_testBit : ∀ p i : ℕ, (evenM p).testBit i = decide (i < 2 * p ∧ i % 2 = 0) := by
  intro p
  induction p with
  | zero =>
    intro i
    simp [evenM]
  | succ p ih =>
    intro i
    have h1 : (1 : ℕ) < 2 ^ 2 := by norm_num
    have ht := Nat.testBit_mul_pow_two_add (evenM p) h1 i
    rw [evenM_succ, show (4 : ℕ) * evenM p + 1 = 2 ^ 2 * evenM p + 1 by ring, ht]
    by_cases hi : i < 2
    · interval_cases i
      · have hT : (0 : ℕ) < 2 * (p + 1) ∧ (0 : ℕ) % 2 = 0 := by omega
        simp [hT]
      · have hF : ¬((1 : ℕ) < 2 * (p + 1) ∧ (1 : ℕ) % 2 = 0) := by omega
        have hlt : (1 : ℕ) < 2 ^ 1 := by norm_num
        rw [Nat.testBit_lt_two_pow hlt]
        simp [hF]
    · simp only [if_neg hi]
      rw [ih]
      exact decide_eq_decide.mpr (by omega)

theorem oddM_testBit : ∀ p i : ℕ, (oddM p).testBit i = decide (i < 2 * p ∧ i % 2 = 1) := by
  intro p i
  have h0 : (0 : ℕ) < 2 ^ 1 := by norm_num
  have ht := Nat.testBit_mul_pow_two_add (evenM p) h0 i
  rw [oddM, show (2 : ℕ) * evenM p = 2 ^ 1 * evenM p + 0 by ring, ht]
  by_cases hi : i < 1
  · have : i = 0 := by omega
    subst this
    simp
  · simp only [if_neg hi]
    rw [evenM_testBit]
    exact decide_eq_decide.mpr (by omega)

/-- `LAT_BITS` is the even mask at full width. -/
theorem LAT_BITS_testBit (i : ℕ) : LAT_BITS.testBit i = decide (i < 64 ∧ i % 2 = 0) :=
  mask5555_testBit i

/-- `LNG_BITS` is the odd mask at full width. -/
theorem LNG_BITS_testBit (i : ℕ) : LNG_BITS.testBit i = decide (i < 64 ∧ i % 2 = 1) :=
  maskAAAA_testBit i

/-- Shifting `LAT_BITS` right by the unused width yields the active even mask. -/
theorem LAT_BITS_shr {p : ℕ} (hp : p ≤ 32) : LAT_BITS >>> (64 - p * 2) = evenM p := by
  apply Nat.eq_of_testBit_eq
  intro i
  rw [Nat.testBit_shiftRight, LAT_BITS_testBit, evenM_testBit]
  exact decide_eq_decide.mpr (by omega)

/-- Shifting `LNG_BITS` right by the unused width yields the active odd mask. -/
theorem LNG_BITS_shr {p : ℕ} (hp : p ≤ 32) : LNG_BITS >>> (64 - p * 2) = oddM p := by
  apply Nat.eq_of_testBit_eq
  intro i
  rw [Nat.testBit_shiftRight, LNG_BITS_testBit, oddM_testBit]
  exact decide_eq_decide.mpr (by omega)

/-- The latitude bits of any word are the spread of its squash. -/
theorem and_LAT_BITS (x : ℕ) : x &&& LAT_BITS = spreadR (squash x) := by
  apply Nat.eq_of_testBit_eq
  intro i
  rw [Nat.testBit_and, LAT_BITS_testBit, spreadR_testBit, squash_testBit]
  by_cases he : i % 2 = 0
  · by_cases hlt : i < 64
    · have h1 : i / 2 < 32 := by omega
      have h2 : 2 * (i / 2) = i := by omega
      simp [he, hlt, h1, h2]
    · have h1 : ¬(i / 2 < 32) := by omega
      simp [he, hlt, h1]
  · simp [he]

/-- The longitude bits of any word are twice the spread of the squash of its
right shift. -/
theorem and_LNG_BITS (x : ℕ) : x &&& LNG_BITS = 2 * spreadR (squash (x >>> 1)) := by
  apply Nat.eq_of_testBit_eq
  intro i
  rw [Nat.testBit_and, LNG_BITS_testBit]
  have h0 : (0 : ℕ) < 2 ^ 1 := by norm_num
  have ht := Nat.testBit_mul_pow_two_add (spreadR (squash (x >>> 1))) h0 i
  rw [show (2 : ℕ) * spreadR (squash (x >>> 1)) =
    2 ^ 1 * spreadR (squash (x >>> 1)) + 0 by ring, ht]
  by_cases hi : i < 1
  · have : i = 0 := by omega
    subst this
    simp
  · simp only [if_neg hi]
    rw [spreadR_testBit, squash_testBit, Nat.testBit_shiftRight]
    by_cases ho : i % 2 = 1
    · by_cases hlt : i < 64
      · have h1 : (i - 1) % 2 = 0 := by omega
        have h2 : (i - 1) / 2 < 32 := by omega
        have h3 : 1 + 2 * ((i - 1) / 2) = i := by omega
        simp [ho, hlt, h1, h2, h3]
      · have h1 : ¬((i - 1) / 2 < 32) := by omega
        have h2 : (i - 1) % 2 = 0 := by omega
        simp [ho, hlt, h1, h2]
    · have h1 : ¬((i - 1) % 2 = 0) := by omega
      simp [ho, h1]

/-- Squashing under the invariant keeps the field below `2^p`. -/
theorem squash_lt_of_lt {x p : ℕ} (hx : x < 2 ^ (2 * p)) : squash x < 2 ^ p := by
  apply Nat.lt_pow_two_of_testBit
  intro i hi
  rw [squash_testBit]
  have : x.testBit (2 * i) = false :=
    Nat.testBit_lt_two_pow (lt_of_lt_of_le hx (Nat.pow_le_pow_right (by omega) (by omega)))
  simp [this]

theorem squash_shr_lt_of_lt {x p : ℕ} (hx : x < 2 ^ (2 * p)) : squash (x >>> 1) < 2 ^ p := by
  apply Nat.lt_pow_two_of_testBit
  intro i hi
  rw [squash_testBit, Nat.testBit_shiftRight]
  have : x.testBit (1 + 2 * i) = false :=
    Nat.testBit_lt_two_pow (lt_of_lt_of_le hx (Nat.pow_le_pow_right (by omega) (by omega)))
  simp [this]

end Geohash

namespace Geohash

theorem or_two_spreadR_evenM : ∀ p v : ℕ, v < 2 ^ p →
    (2 * spreadR v) ||| evenM p = 2 * spreadR v + evenM p := by
  intro p
  induction p with
  | zero =>
    intro v hv
    have : v = 0 := by omega
    subst this
    simp [spreadR_zero, evenM]
  | succ p ih =>
    intro v hv
    have h2 : 2 ^ (p + 1) = 2 * 2 ^ p := by ring
    have hw : v / 2 < 2 ^ p := by omega
    have hdec : v = 2 * (v / 2) + v % 2 := by omega
    have hsv : spreadR v = 4 * spreadR (v / 2) + v % 2 := by
      conv_lhs => rw [hdec]
      rw [spreadR_two_mul_add _ (by omega)]
    have hre : 2 * spreadR v = 4 * (2 * spreadR (v / 2)) + 2 * (v % 2) := by
      rw [hsv]
      ring
    rw [hre, evenM_succ, or_four _ _ (by omega) (by omega), ih _ hw]
    have hd : 2 * (v % 2) ||| 1 = 2 * (v % 2) + 1 := by
      rcases Nat.mod_two_eq_zero_or_one v with hc | hc <;> rw [hc] <;> decide
    rw [hd]
    ring

theorem or_spreadR_oddM : ∀ p v : ℕ, v < 2 ^ p →
    spreadR v ||| oddM p = spreadR v + oddM p := by
  intro p
  induction p with
  | zero =>
    intro v hv
    have : v = 0 := by omega
    subst this
    simp [spreadR_zero, oddM, evenM]
  | succ p ih =>
    intro v hv
    have h2 : 2 ^ (p + 1) = 2 * 2 ^ p := by ring
    have hw : v / 2 < 2 ^ p := by omega
    have hdec : v = 2 * (v / 2) + v % 2 := by omega
    have hsv : spreadR v = 4 * spreadR (v / 2) + v % 2 := by
      conv_lhs => rw [hdec]
      rw [spreadR_two_mul_add _ (by omega)]
    rw [hsv, oddM_succ, or_four _ _ (by omega) (by omega), ih _ hw]
    have hd : v % 2 ||| 2 = v % 2 + 2 := by
      rcases Nat.mod_two_eq_zero_or_one v with hc | hc <;> rw [hc] <;> decide
    rw [hd]
    ring

theorem all_ones_and_evenM {p : ℕ} (hp : p ≤ 32) : (2 ^ 64 - 1) &&& evenM p = evenM p := by
  apply Nat.eq_of_testBit_eq
  intro i
  rw [Nat.testBit_and, Nat.testBit_two_pow_sub_one, evenM_testBit]
  by_cases h : i < 2 * p ∧ i % 2 = 0
  · have : i < 64 := by omega
    simp [h, this]
  · simp [h]

theorem all_ones_and_oddM {p : ℕ} (hp : p ≤ 32) : (2 ^ 64 - 1) &&& oddM p = oddM p := by
  apply Nat.eq_of_testBit_eq
  intro i
  rw [Nat.testBit_and, Nat.testBit_two_pow_sub_one, oddM_testBit]
  by_cases h : i < 2 * p ∧ i % 2 = 1
  · have : i < 64 := by omega
    simp [h, this]
  · simp [h]

theorem spreadR_le_evenM {p v : ℕ} (hv : v < 2 ^ p) : spreadR v ≤ evenM p := by
  rw [← spreadR_and_evenM p v hv]
  exact Nat.and_le_right

theorem two_pow_twice_le {p : ℕ} (hp : p ≤ 32) : (2 : ℕ) ^ (2 * p) ≤ 2 ^ 64 :=
  Nat.pow_le_pow_right (by omega) (by omega)

/-- Moving east advances the longitude field by one unit, wrapping in the
active width, and leaves the latitude bits in place. -/
theorem move_x_east (g : GeoBits) (hp2 : g.precision ≤ 32)
    (hb : g.bits < 2 ^ (2 * g.precision)) :
    g.move_x false = ⟨(2 * spreadR ((squash (g.bits >>> 1) + 1) % 2 ^ g.precision))
      ||| (g.bits &&& LAT_BITS), g.precision⟩ := by
  have hv : squash (g.bits >>> 1) < 2 ^ g.precision := squash_shr_lt_of_lt hb
  have hlng := and_LNG_BITS g.bits
  unfold GeoBits.move_x
  simp only [Bool.false_eq_true, if_false]
  congr 1
  rw [hlng, LAT_BITS_shr hp2, LNG_BITS_shr hp2,
    mod_two_pow_and _ (lt_of_lt_of_le (oddM_lt g.precision) (two_pow_twice_le hp2)),
    show 2 * spreadR (squash (g.bits >>> 1)) + (evenM g.precision + 1) =
      2 * spreadR (squash (g.bits >>> 1)) + evenM g.precision + 1 by ring,
    inc_odd g.precision _ hv]

/-- Moving west retreats the longitude field by one unit, wrapping in the
active width, and leaves the latitude bits in place. -/
theorem move_x_west (g : GeoBits) (hp2 : g.precision ≤ 32)
    (hb : g.bits < 2 ^ (2 * g.precision)) :
    g.move_x true = ⟨(2 * spreadR ((squash (g.bits >>> 1) + (2 ^ g.precision - 1)) %
      2 ^ g.precision)) ||| (g.bits &&& LAT_BITS), g.precision⟩ := by
  have hv : squash (g.bits >>> 1) < 2 ^ g.precision := squash_shr_lt_of_lt hb
  have hlng := and_LNG_BITS g.bits
  have hpos : 0 < (2 : ℕ) ^ g.precision := Nat.pos_pow_of_pos _ (by omega)
  unfold GeoBits.move_x
  simp only [if_true]
  congr 1
  rw [hlng, LAT_BITS_shr hp2, LNG_BITS_shr hp2,
    or_two_spreadR_evenM g.precision _ hv]
  by_cases h0 : squash (g.bits >>> 1) = 0
  · rw [h0]
    rw [show (2 * spreadR 0 + evenM g.precision + 2 ^ 64 - (evenM g.precision + 1)) =
      2 ^ 64 - 1 by rw [spreadR_zero]; omega]
    rw [Nat.mod_eq_of_lt (by omega), all_ones_and_oddM hp2]
    rw [show ((0 : ℕ) + (2 ^ g.precision - 1)) % 2 ^ g.precision = 2 ^ g.precision - 1 by
      rw [Nat.zero_add]
      exact Nat.mod_eq_of_lt (by omega)]
    rw [spreadR_full, oddM]
  · have hspos := spreadR_pos _ (Nat.pos_of_ne_zero h0)
    have hle : spreadR (squash (g.bits >>> 1)) ≤ evenM g.precision := spreadR_le_evenM hv
    have hoddlt : oddM g.precision < 2 ^ 64 :=
      lt_of_lt_of_le (oddM_lt g.precision) (two_pow_twice_le hp2)
    have h2S : 2 * spreadR (squash (g.bits >>> 1)) - 1 < 2 ^ 64 := by
      unfold oddM at hoddlt
      omega
    rw [show (2 * spreadR (squash (g.bits >>> 1)) + evenM g.precision + 2 ^ 64 -
        (evenM g.precision + 1)) =
      2 ^ 64 + (2 * spreadR (squash (g.bits >>> 1)) - 1) by omega]
    rw [Nat.add_mod_left, Nat.mod_eq_of_lt h2S,
      dec_odd g.precision _ (Nat.pos_of_ne_zero h0) hv]
    rw [show (squash (g.bits >>> 1) + (2 ^ g.precision - 1)) % 2 ^ g.precision =
      squash (g.bits >>> 1) - 1 by
        rw [show squash (g.bits >>> 1) + (2 ^ g.precision - 1) =
          2 ^ g.precision + (squash (g.bits >>> 1) - 1) by omega]
        rw [Nat.add_mod_left]
        exact Nat.mod_eq_of_lt (by omega)]

/-- Moving north advances the latitude field by one unit, wrapping in the
active width, and leaves the longitude bits in place. -/
theorem move_y_north (g : GeoBits) (hp2 : g.precision ≤ 32)
    (hb : g.bits < 2 ^ (2 * g.precision)) :
    g.move_y false = ⟨(g.bits &&& LNG_BITS) |||
      spreadR ((squash g.bits + 1) % 2 ^ g.precision), g.precision⟩ := by
  have hv : squash g.bits < 2 ^ g.precision := squash_lt_of_lt hb
  have hlat := and_LAT_BITS g.bits
  unfold GeoBits.move_y
  simp only [Bool.false_eq_true, if_false]
  congr 1
  rw [hlat, LAT_BITS_shr hp2, LNG_BITS_shr hp2,
    mod_two_pow_and _ (lt_of_lt_of_le (evenM_lt g.precision) (two_pow_twice_le hp2)),
    show spreadR (squash g.bits) + (oddM g.precision + 1) =
      spreadR (squash g.bits) + oddM g.precision + 1 by ring,
    inc_even g.precision _ hv]

/-- Moving south retreats the latitude field by one unit, wrapping in the
active width, and leaves the longitude bits in place. -/
theorem move_y_south (g : GeoBits) (hp2 : g.precision ≤ 32)
    (hb : g.bits < 2 ^ (2 * g.precision)) :
    g.move_y true = ⟨(g.bits &&& LNG_BITS) |||
      spreadR ((squash g.bits + (2 ^ g.precision - 1)) % 2 ^ g.precision), g.precision⟩ := by
  have hv : squash g.bits < 2 ^ g.precision := squash_lt_of_lt hb
  have hlat := and_LAT_BITS g.bits
  have hpos : 0 < (2 : ℕ) ^ g.precision := Nat.pos_pow_of_pos _ (by omega)
  unfold GeoBits.move_y
  simp only [if_true]
  congr 1
  rw [hlat, LAT_BITS_shr hp2, LNG_BITS_shr hp2,
    or_spreadR_oddM g.precision _ hv]
  by_cases h0 : squash g.bits = 0
  · rw [h0]
    rw [show (spreadR 0 + oddM g.precision + 2 ^ 64 - (oddM g.precision + 1)) =
      2 ^ 64 - 1 by rw [spreadR_zero]; omega]
    rw [Nat.mod_eq_of_lt (by omega), all_ones_and_evenM hp2]
    rw [show ((0 : ℕ) + (2 ^ g.precision - 1)) % 2 ^ g.precision = 2 ^ g.precision - 1 by
      rw [Nat.zero_add]
      exact Nat.mod_eq_of_lt (by omega)]
    rw [spreadR_full]
  · have hspos := spreadR_pos _ (Nat.pos_of_ne_zero h0)
    have hevenlt : evenM g.precision < 2 ^ 64 :=
      lt_of_lt_of_le (evenM_lt g.precision) (two_pow_twice_le hp2)
    have hle : spreadR (squash g.bits) ≤ evenM g.precision := spreadR_le_evenM hv
    have hS : spreadR (squash g.bits) - 1 < 2 ^ 64 := by omega
    rw [show (spreadR (squash g.bits) + oddM g.precision + 2 ^ 64 -
        (oddM g.precision + 1)) = 2 ^ 64 + (spreadR (squash g.bits) - 1) by omega]
    rw [Nat.add_mod_left, Nat.mod_eq_of_lt hS,
      dec_even g.precision _ (Nat.pos_of_ne_zero h0) hv]
    rw [show (squash g.bits + (2 ^ g.precision - 1)) % 2 ^ g.precision =
      squash g.bits - 1 by
        rw [show squash g.bits + (2 ^ g.precision - 1) =
          2 ^ g.precision + (squash g.bits - 1) by omega]
        rw [Nat.add_mod_left]
        exact Nat.mod_eq_of_lt (by omega)]

end Geohash

namespace Geohash

theorem and_or_distrib_right (a b c : ℕ) : (a ||| b) &&& c = (a &&& c) ||| (b &&& c) := by
  rw [Nat.and_comm _ c, Nat.and_or_distrib_left, Nat.and_comm c a, Nat.and_comm c b]

theorem two_spreadR_and_LAT (w : ℕ) : (2 * spreadR w) &&& LAT_BITS = 0 := by
  apply Nat.eq_of_testBit_eq
  intro i
  rw [Nat.testBit_and, LAT_BITS_testBit]
  have h0 : (0 : ℕ) < 2 ^ 1 := by norm_num
  have ht := Nat.testBit_mul_pow_two_add (spreadR w) h0 i
  rw [show (2 : ℕ) * spreadR w = 2 ^ 1 * spreadR w + 0 by ring, ht]
  by_cases hi : i < 1
  · simp [hi]
  · simp only [if_neg hi]
    rw [spreadR_testBit]
    by_cases he : i % 2 = 0
    · have : ¬((i - 1) % 2 = 0) := by omega
      simp [this]
    · simp [he]

theorem two_spreadR_and_LNG {w : ℕ} (hw : w < 2 ^ 32) :
    (2 * spreadR w) &&& LNG_BITS = 2 * spreadR w := by
  apply Nat.eq_of_testBit_eq
  intro i
  rw [Nat.testBit_and, LNG_BITS_testBit]
  have h0 : (0 : ℕ) < 2 ^ 1 := by norm_num
  have ht := Nat.testBit_mul_pow_two_add (spreadR w) h0 i
  rw [show (2 : ℕ) * spreadR w = 2 ^ 1 * spreadR w + 0 by ring, ht]
  by_cases hi : i < 1
  · simp [hi]
  · simp only [if_neg hi]
    rw [spreadR_testBit]
    by_cases he : (i - 1) % 2 = 0
    · by_cases hj : (i - 1) / 2 < 32
      · have h1 : i < 64 ∧ i % 2 = 1 := by omega
        simp [he, h1]
      · have hwf : w.testBit ((i - 1) / 2) = false :=
          Nat.testBit_lt_two_pow (lt_of_lt_of_le hw (Nat.pow_le_pow_right (by omega) (by omega)))
        simp [hwf]
    · simp [he]

theorem spreadR_and_LNG (w : ℕ) : spreadR w &&& LNG_BITS = 0 := by
  apply Nat.eq_of_testBit_eq
  intro i
  rw [Nat.testBit_and, LNG_BITS_testBit, spreadR_testBit]
  by_cases he : i % 2 = 0
  · have : ¬(i < 64 ∧ i % 2 = 1) := by omega
    simp [this]
  · simp [he]

theorem spreadR_and_LAT {w : ℕ} (hw : w < 2 ^ 32) : spreadR w &&& LAT_BITS = spreadR w := by
  apply Nat.eq_of_testBit_eq
  intro i
  rw [Nat.testBit_and, LAT_BITS_testBit, spreadR_testBit]
  by_cases he : i % 2 = 0
  · by_cases hj : i / 2 < 32
    · have h1 : i < 64 ∧ i % 2 = 0 := by omega
      simp [h1]
    · have hwf : w.testBit (i / 2) = false :=
        Nat.testBit_lt_two_pow (lt_of_lt_of_le hw (Nat.pow_le_pow_right (by omega) (by omega)))
      simp [hwf]
  · simp [he]

theorem andLAT_and_LNG (y : ℕ) : (y &&& LAT_BITS) &&& LNG_BITS = 0 := by
  apply Nat.eq_of_testBit_eq
  intro i
  rw [Nat.testBit_and, Nat.testBit_and, LAT_BITS_testBit, LNG_BITS_testBit]
  by_cases he : i % 2 = 0
  · have : ¬(i < 64 ∧ i % 2 = 1) := by omega
    simp [this]
  · have : ¬(i < 64 ∧ i % 2 = 0) := by omega
    simp [this]

theorem andLNG_and_LAT (y : ℕ) : (y &&& LNG_BITS) &&& LAT_BITS = 0 := by
  apply Nat.eq_of_testBit_eq
  intro i
  rw [Nat.testBit_and, Nat.testBit_and, LAT_BITS_testBit, LNG_BITS_testBit]
  by_cases he : i % 2 = 0
  · have : ¬(i < 64 ∧ i % 2 = 1) := by omega
    simp [this]
  · have : ¬(i < 64 ∧ i % 2 = 0) := by omega
    simp [this]

/-- A 64-bit word is the disjoint union of its longitude and latitude bits. -/
theorem parts_or {x : ℕ} (hx : x < 2 ^ 64) :
    (x &&& LNG_BITS) ||| (x &&& LAT_BITS) = x := by
  apply Nat.eq_of_testBit_eq
  intro i
  rw [Nat.testBit_or, Nat.testBit_and, Nat.testBit_and, LAT_BITS_testBit, LNG_BITS_testBit]
  by_cases hlt : i < 64
  · rcases Nat.mod_two_eq_zero_or_one i with he | he
    · have h1 : i < 64 ∧ i % 2 = 0 := ⟨hlt, he⟩
      have h2 : ¬(i < 64 ∧ i % 2 = 1) := by omega
      simp [h1, h2]
    · have h1 : i < 64 ∧ i % 2 = 1 := ⟨hlt, he⟩
      have h2 : ¬(i < 64 ∧ i % 2 = 0) := by omega
      simp [h1, h2]
  · have h1 : ¬(i < 64 ∧ i % 2 = 0) := by omega
    have h2 : ¬(i < 64 ∧ i % 2 = 1) := by omega
    have h3 : x.testBit i = false := testBit_of_ge hx (by omega)
    simp [h1, h2, h3]

/-- The longitude field of a moved-longitude word. -/
theorem squash_shr_move_x {w : ℕ} (hw : w < 2 ^ 32) (y : ℕ) :
    squash (((2 * spreadR w) ||| (y &&& LAT_BITS)) >>> 1) = w := by
  apply Nat.eq_of_testBit_eq
  intro j
  rw [squash_testBit, Nat.testBit_shiftRight, Nat.testBit_or, Nat.testBit_and,
    LAT_BITS_testBit]
  have h0 : (0 : ℕ) < 2 ^ 1 := by norm_num
  have ht := Nat.testBit_mul_pow_two_add (spreadR w) h0 (1 + 2 * j)
  rw [show (2 : ℕ) * spreadR w = 2 ^ 1 * spreadR w + 0 by ring, ht]
  have hi : ¬(1 + 2 * j < 1) := by omega
  simp only [if_neg hi]
  rw [spreadR_testBit]
  have e1 : (1 + 2 * j - 1) = 2 * j := by omega
  have e2 : 2 * j % 2 = 0 := by omega
  have e3 : 2 * j / 2 = j := by omega
  have e4 : ¬(1 + 2 * j < 64 ∧ (1 + 2 * j) % 2 = 0) := by omega
  rw [e1]
  by_cases hj : j < 32
  · simp [e2, e3, e4, hj]
  · have hwf : w.testBit j = false :=
      Nat.testBit_lt_two_pow (lt_of_lt_of_le hw (Nat.pow_le_pow_right (by omega) (by omega)))
    simp [e2, e3, e4, hj, hwf]

/-- The latitude field of a moved-latitude word. -/
theorem squash_move_y {w : ℕ} (hw : w < 2 ^ 32) (y : ℕ) :
    squash ((y &&& LNG_BITS) ||| spreadR w) = w := by
  apply Nat.eq_of_testBit_eq
  intro j
  rw [squash_testBit, Nat.testBit_or, Nat.testBit_and, LNG_BITS_testBit, spreadR_testBit]
  have e1 : ¬(2 * j < 64 ∧ 2 * j % 2 = 1) := by omega
  have e2 : 2 * j % 2 = 0 := by omega
  have e3 : 2 * j / 2 = j := by omega
  by_cases hj : j < 32
  · simp [e1, e2, e3, hj]
  · have hwf : w.testBit j = false :=
      Nat.testBit_lt_two_pow (lt_of_lt_of_le hw (Nat.pow_le_pow_right (by omega) (by omega)))
    simp [e1, e2, e3, hj, hwf]

end Geohash

namespace Geohash

theorem moved_x_and_LAT (w y : ℕ) :
    ((2 * spreadR w) ||| (y &&& LAT_BITS)) &&& LAT_BITS = y &&& LAT_BITS := by
  rw [and_or_distrib_right, two_spreadR_and_LAT, Nat.and_assoc, Nat.and_self, Nat.zero_or]

theorem moved_y_and_LNG (w y : ℕ) :
    ((y &&& LNG_BITS) ||| spreadR w) &&& LNG_BITS = y &&& LNG_BITS := by
  rw [and_or_distrib_right, spreadR_and_LNG, Nat.and_assoc, Nat.and_self, Nat.or_zero]

theorem moved_x_and_LNG {w : ℕ} (hw : w < 2 ^ 32) (y : ℕ) :
    ((2 * spreadR w) ||| (y &&& LAT_BITS)) &&& LNG_BITS = 2 * spreadR w := by
  rw [and_or_distrib_right, two_spreadR_and_LNG hw, andLAT_and_LNG, Nat.or_zero]

theorem moved_y_and_LAT {w : ℕ} (hw : w < 2 ^ 32) (y : ℕ) :
    ((y &&& LNG_BITS) ||| spreadR w) &&& LAT_BITS = spreadR w := by
  rw [and_or_distrib_right, andLNG_and_LAT, spreadR_and_LAT hw, Nat.zero_or]

theorem moved_x_lt {w p : ℕ} (hw : w < 2 ^ p) {y : ℕ} (hy : y < 2 ^ (2 * p)) :
    (2 * spreadR w) ||| (y &&& LAT_BITS) < 2 ^ (2 * p) := by
  apply Nat.or_lt_two_pow
  · have h1 := spreadR_le_evenM hw
    have h2 := oddM_lt p
    unfold oddM at h2
    omega
  · exact lt_of_le_of_lt (Nat.and_le_left) hy

theorem moved_y_lt {w p : ℕ} (hw : w < 2 ^ p) {y : ℕ} (hy : y < 2 ^ (2 * p)) :
    (y &&& LNG_BITS) ||| spreadR w < 2 ^ (2 * p) := by
  apply Nat.or_lt_two_pow
  · exact lt_of_le_of_lt (Nat.and_le_left) hy
  · exact spreadR_lt p w hw

theorem Q.den_pos (q : Q) : 0 < q.den := Nat.succ_pos _

theorem Q.den_cast_pos (q : Q) : (0 : ℚ) < (q.den : ℚ) := by
  exact_mod_cast q.den_pos

theorem Q.ble_iff (a b : Q) : a.ble b = true ↔ a.toRat ≤ b.toRat := by
  unfold Q.ble Q.toRat
  rw [decide_eq_true_eq, div_le_div_iff₀ a.den_cast_pos b.den_cast_pos]
  constructor <;> intro h <;> exact_mod_cast h

theorem Q.blt_iff (a b : Q) : a.blt b = true ↔ a.toRat < b.toRat := by
  unfold Q.blt Q.toRat
  rw [decide_eq_true_eq, div_lt_div_iff₀ a.den_cast_pos b.den_cast_pos]
  constructor <;> intro h <;> exact_mod_cast h

theorem Q.intVal_toRat (n : ℤ) : (Q.intVal n).toRat = (n : ℚ) := by
  unfold Q.intVal Q.toRat Q.den
  norm_num

/-- The f32 range check of `Coord::new` on the latitude range agrees with the
rational half-open interval `[-90, 90)`. -/
theorem containsF_LAT_iff (x : FP) :
    LAT_RNG.containsF x = true ↔ FP.inHalfOpen (-90) 90 x := by
  cases x with
  | nan => simp [RangeF.containsF, LAT_RNG, LAT_MIN, LAT_MAX, FP.le, FP.lt, FP.inHalfOpen]
  | posInf => simp [RangeF.containsF, LAT_RNG, LAT_MIN, LAT_MAX, FP.le, FP.lt, FP.inHalfOpen]
  | negInf => simp [RangeF.containsF, LAT_RNG, LAT_MIN, LAT_MAX, FP.le, FP.lt, FP.inHalfOpen]
  | finite q =>
    simp only [RangeF.containsF, LAT_RNG, LAT_MIN, LAT_MAX, FP.le, FP.lt, FP.inHalfOpen,
      Bool.and_eq_true]
    rw [Q.ble_iff, Q.blt_iff, Q.intVal_toRat, Q.intVal_toRat]
    norm_num

/-- The f32 range check of `Coord::new` on the longitude range agrees with
the rational half-open interval `[-180, 180)`. -/
theorem containsF_LNG_iff (x : FP) :
    LNG_RNG.containsF x = true ↔ FP.inHalfOpen (-180) 180 x := by
  cases x with
  | nan => simp [RangeF.containsF, LNG_RNG, LNG_MIN, LNG_MAX, FP.le, FP.lt, FP.inHalfOpen]
  | posInf => simp [RangeF.containsF, LNG_RNG, LNG_MIN, LNG_MAX, FP.le, FP.lt, FP.inHalfOpen]
  | negInf => simp [RangeF.containsF, LNG_RNG, LNG_MIN, LNG_MAX, FP.le, FP.lt, FP.inHalfOpen]
  | finite q =>
    simp only [RangeF.containsF, LNG_RNG, LNG_MIN, LNG_MAX, FP.le, FP.lt, FP.inHalfOpen,
      Bool.and_eq_true]
    rw [Q.ble_iff, Q.blt_iff, Q.intVal_toRat, Q.intVal_toRat]
    norm_num

end Geohash

/-! ## Claims -/

namespace Geohash

/-- Claim C2 counterexample: `deinterleave64 (interleave64 0 1)` is `(1, 0)`,
not `(0, 1)` — the components come back swapped. -/
theorem c2_counterexample : ¬(deinterleave64 (interleave64 0 1) = (0, 1)) := by decide

/-- Claim C2 (amended): for every pair of 32-bit values `a` and `b`,
`deinterleave64 (interleave64 a b)` returns the pair swapped: `(b, a)` —
`interleave64` takes `(lat, lng)` and `deinterleave64` returns `(lng, lat)`. -/
theorem c2_deinterleave_interleave (a b : ℕ) (ha : a < 2 ^ 32) (hb : b < 2 ^ 32) :
    deinterleave64 (interleave64 a b) = (b, a) :=
  deinterleave64_interleave64 ha hb

/-- Claim C2 witness: the amended round trip at `a = 3`, `b = 5`. -/
theorem c2_witness : (3 : ℕ) < 2 ^ 32 ∧ (5 : ℕ) < 2 ^ 32 ∧
    deinterleave64 (interleave64 3 5) = (5, 3) :=
  ⟨by decide, by decide, c2_deinterleave_interleave 3 5 (by decide) (by decide)⟩

/-- Claim C4 counterexample: at precision 32 with bits `2^63` (a value
satisfying the active-bit invariant), `next_leftbottom` yields bits 0, not
the claimed `(2^63 << 2) | 0 = 2^65` — the u64 shift discards the top bits. -/
theorem c4_counterexample :
    ¬((GeoBits.next_leftbottom ⟨2 ^ 63, 32⟩).bits = ((2 ^ 63 : ℕ) <<< 2) ||| 0) := by decide

/-- Claim C4 (amended): for every GeoCode whose bits fit below `2^62` (in
particular any code satisfying the invariant at precision ≤ 31) and whose
precision is below the u8 wrap, the four subdivision operations return a
GeoCode at precision `p + 1` whose bits are the parent's bits shifted left
by 2 OR-ed with the 2-bit selector: 0 for left-bottom, 1 for left-top, 2 for
right-bottom, 3 for right-top. -/
theorem c4_subdivision (g : GeoBits) (hbits : g.bits < 2 ^ 62) (hp : g.precision ≤ 254) :
    g.next_leftbottom = ⟨(g.bits <<< 2) ||| 0, g.precision + 1⟩ ∧
    g.next_lefttop = ⟨(g.bits <<< 2) ||| 1, g.precision + 1⟩ ∧
    g.next_rightbottom = ⟨(g.bits <<< 2) ||| 2, g.precision + 1⟩ ∧
    g.next_righttop = ⟨(g.bits <<< 2) ||| 3, g.precision + 1⟩ := by
  have hmul : g.bits <<< 2 = 2 ^ 2 * g.bits := by
    rw [Nat.shiftLeft_eq]
    ring
  have hlt : g.bits <<< 2 < 2 ^ 64 := by
    rw [hmul]
    have h64 : (2 : ℕ) ^ 64 = 2 ^ 2 * 2 ^ 62 := by norm_num
    omega
  have hmod : (g.bits <<< 2) % 2 ^ 64 = g.bits <<< 2 := Nat.mod_eq_of_lt hlt
  have hor : ∀ k : ℕ, k < 4 → g.bits <<< 2 + k = (g.bits <<< 2) ||| k := by
    intro k hk
    rw [hmul]
    exact Nat.mul_add_lt_is_or (by omega) g.bits
  have hprec : (g.precision + 1) % 256 = g.precision + 1 := Nat.mod_eq_of_lt (by omega)
  refine ⟨?_, ?_, ?_, ?_⟩
  · unfold GeoBits.next_leftbottom
    rw [hmod, hprec, Nat.or_zero]
  · unfold GeoBits.next_lefttop
    rw [hmod, hprec, hor 1 (by omega)]
  · unfold GeoBits.next_rightbottom
    rw [hmod, hprec, hor 2 (by omega)]
  · unfold GeoBits.next_righttop
    rw [hmod, hprec, hor 3 (by omega)]

/-- Claim C4 witness: the four children of the repository's own test code
`{bits = 0b111001100010110101100011101010, precision = 15}`. -/
theorem c4_witness : (0b111001100010110101100011101010 : ℕ) < 2 ^ 62 ∧ (15 : ℕ) ≤ 254 ∧
    ((GeoBits.mk 0b111001100010110101100011101010 15).next_leftbottom =
      ⟨((0b111001100010110101100011101010 : ℕ) <<< 2) ||| 0, 16⟩ ∧
     (GeoBits.mk 0b111001100010110101100011101010 15).next_lefttop =
      ⟨((0b111001100010110101100011101010 : ℕ) <<< 2) ||| 1, 16⟩ ∧
     (GeoBits.mk 0b111001100010110101100011101010 15).next_rightbottom =
      ⟨((0b111001100010110101100011101010 : ℕ) <<< 2) ||| 2, 16⟩ ∧
     (GeoBits.mk 0b111001100010110101100011101010 15).next_righttop =
      ⟨((0b111001100010110101100011101010 : ℕ) <<< 2) ||| 3, 16⟩) :=
  ⟨by decide, by decide, c4_subdivision ⟨0b111001100010110101100011101010, 15⟩
    (by decide) (by decide)⟩

/-- Claim C10: the subdivision operations perform no precision check and
never fail; at the documented maximum precision 32 each returns precision 33
(outside 1..=32), with bits equal to the parent's bits shifted left by two
modulo `2^64`, i.e. with the parent's top two active bits silently
discarded. -/
theorem c10_subdivision_at_max (g : GeoBits) (hp : g.precision = 32) :
    (g.next_leftbottom).precision = 33 ∧ (g.next_lefttop).precision = 33 ∧
    (g.next_rightbottom).precision = 33 ∧ (g.next_righttop).precision = 33 ∧
    32 < (g.next_leftbottom).precision ∧
    (g.next_leftbottom).bits = (g.bits <<< 2) % 2 ^ 64 ∧
    (g.next_leftbottom).bits = (g.bits % 2 ^ 62) <<< 2 ∧
    (g.next_lefttop).bits = ((g.bits % 2 ^ 62) <<< 2) + 1 ∧
    (g.next_rightbottom).bits = ((g.bits % 2 ^ 62) <<< 2) + 2 ∧
    (g.next_righttop).bits = ((g.bits % 2 ^ 62) <<< 2) + 3 := by
  have hshift : (g.bits <<< 2) % 2 ^ 64 = (g.bits % 2 ^ 62) <<< 2 := by
    rw [Nat.shiftLeft_eq, Nat.shiftLeft_eq,
      show ((2 : ℕ) ^ 64) = 2 ^ 62 * 2 ^ 2 by norm_num, Nat.mul_mod_mul_right]
  have hprec : (g.precision + 1) % 256 = 33 := by rw [hp]
  exact ⟨hprec, hprec, hprec, hprec, by
    show (32 : ℕ) < (g.precision + 1) % 256
    omega, rfl, hshift, by
    show (g.bits <<< 2) % 2 ^ 64 + 1 = _
    rw [hshift], by
    show (g.bits <<< 2) % 2 ^ 64 + 2 = _
    rw [hshift], by
    show (g.bits <<< 2) % 2 ^ 64 + 3 = _
    rw [hshift]⟩

/-- Claim C10 witness: subdivision of `{bits = 2^63, precision = 32}`. -/
theorem c10_witness : (GeoBits.mk (2 ^ 63) 32).precision = 32 ∧
    (((GeoBits.mk (2 ^ 63) 32).next_leftbottom).precision = 33 ∧
     ((GeoBits.mk (2 ^ 63) 32).next_lefttop).precision = 33 ∧
     ((GeoBits.mk (2 ^ 63) 32).next_rightbottom).precision = 33 ∧
     ((GeoBits.mk (2 ^ 63) 32).next_righttop).precision = 33 ∧
     32 < ((GeoBits.mk (2 ^ 63) 32).next_leftbottom).precision ∧
     ((GeoBits.mk (2 ^ 63) 32).next_leftbottom).bits = (((2 ^ 63 : ℕ)) <<< 2) % 2 ^ 64 ∧
     ((GeoBits.mk (2 ^ 63) 32).next_leftbottom).bits = (((2 ^ 63 : ℕ)) % 2 ^ 62) <<< 2 ∧
     ((GeoBits.mk (2 ^ 63) 32).next_lefttop).bits = ((((2 ^ 63 : ℕ)) % 2 ^ 62) <<< 2) + 1 ∧
     ((GeoBits.mk (2 ^ 63) 32).next_rightbottom).bits = ((((2 ^ 63 : ℕ)) % 2 ^ 62) <<< 2) + 2 ∧
     ((GeoBits.mk (2 ^ 63) 32).next_righttop).bits = ((((2 ^ 63 : ℕ)) % 2 ^ 62) <<< 2) + 3) :=
  ⟨rfl, c10_subdivision_at_max ⟨2 ^ 63, 32⟩ rfl⟩

end Geohash

namespace Geohash

/-- Claim C5: for a GeoCode (satisfying the data-model invariants), if its
longitude bit-field value is strictly interior to the active range (neither
all zeros nor all ones), then `get_neighbor East` followed by
`get_neighbor West` is the identity; symmetrically, if its latitude
bit-field value is strictly interior, `North` then `South` is the
identity. -/
theorem c5_neighbor_inverse (g : GeoBits) (hp1 : 1 ≤ g.precision) (hp2 : g.precision ≤ 32)
    (hb : g.bits < 2 ^ (2 * g.precision)) :
    ((g.bits &&& LNG_BITS ≠ 0 ∧
      g.bits &&& LNG_BITS ≠ LNG_BITS >>> (64 - g.precision * 2)) →
      (g.get_neighbor .East).get_neighbor .West = g) ∧
    ((g.bits &&& LAT_BITS ≠ 0 ∧
      g.bits &&& LAT_BITS ≠ LAT_BITS >>> (64 - g.precision * 2)) →
      (g.get_neighbor .North).get_neighbor .South = g) := by
  have hplt : (2 : ℕ) ^ (2 * g.precision) ≤ 2 ^ 64 := two_pow_twice_le hp2
  have hp32 : (2 : ℕ) ^ g.precision ≤ 2 ^ 32 := Nat.pow_le_pow_right (by omega) (by omega)
  constructor
  · rintro ⟨hlng0, hlng1⟩
    have hv : squash (g.bits >>> 1) < 2 ^ g.precision := squash_shr_lt_of_lt hb
    have hvne : squash (g.bits >>> 1) ≠ 2 ^ g.precision - 1 := by
      intro hEq
      apply hlng1
      rw [and_LNG_BITS, LNG_BITS_shr hp2, hEq, spreadR_full, oddM]
    have hv1 : squash (g.bits >>> 1) + 1 < 2 ^ g.precision := by omega
    show (g.move_x false).move_x true = g
    have h1 : g.move_x false =
        ⟨(2 * spreadR (squash (g.bits >>> 1) + 1)) ||| (g.bits &&& LAT_BITS), g.precision⟩ := by
      rw [move_x_east g hp2 hb, Nat.mod_eq_of_lt hv1]
    rw [h1]
    rw [move_x_west ⟨(2 * spreadR (squash (g.bits >>> 1) + 1)) ||| (g.bits &&& LAT_BITS),
      g.precision⟩ hp2 (moved_x_lt hv1 hb)]
    rw [squash_shr_move_x (lt_of_lt_of_le hv1 hp32) g.bits, moved_x_and_LAT]
    have hmod : (squash (g.bits >>> 1) + 1 + (2 ^ g.precision - 1)) % 2 ^ g.precision =
        squash (g.bits >>> 1) := by
      rw [show squash (g.bits >>> 1) + 1 + (2 ^ g.precision - 1) =
        2 ^ g.precision + squash (g.bits >>> 1) by omega, Nat.add_mod_left]
      exact Nat.mod_eq_of_lt hv
    rw [hmod, ← and_LNG_BITS, parts_or (lt_of_lt_of_le hb hplt)]
  · rintro ⟨hlat0, hlat1⟩
    have hu : squash g.bits < 2 ^ g.precision := squash_lt_of_lt hb
    have hune : squash g.bits ≠ 2 ^ g.precision - 1 := by
      intro hEq
      apply hlat1
      rw [and_LAT_BITS, LAT_BITS_shr hp2, hEq, spreadR_full]
    have hu1 : squash g.bits + 1 < 2 ^ g.precision := by omega
    show (g.move_y false).move_y true = g
    have h1 : g.move_y false =
        ⟨(g.bits &&& LNG_BITS) ||| spreadR (squash g.bits + 1), g.precision⟩ := by
      rw [move_y_north g hp2 hb, Nat.mod_eq_of_lt hu1]
    rw [h1]
    rw [move_y_south ⟨(g.bits &&& LNG_BITS) ||| spreadR (squash g.bits + 1),
      g.precision⟩ hp2 (moved_y_lt hu1 hb)]
    rw [squash_move_y (lt_of_lt_of_le hu1 hp32) g.bits, moved_y_and_LNG]
    have hmod : (squash g.bits + 1 + (2 ^ g.precision - 1)) % 2 ^ g.precision =
        squash g.bits := by
      rw [show squash g.bits + 1 + (2 ^ g.precision - 1) =
        2 ^ g.precision + squash g.bits by omega, Nat.add_mod_left]
      exact Nat.mod_eq_of_lt hu
    rw [hmod, ← and_LAT_BITS, parts_or (lt_of_lt_of_le hb hplt)]

/-- Claim C5 witness: the code `{bits = 0b0110, precision = 2}` has both
fields interior; each round trip, under its own axis's interiority alone,
is the identity. -/
theorem c5_witness : (1 ≤ (2 : ℕ) ∧ (2 : ℕ) ≤ 32 ∧ (0b0110 : ℕ) < 2 ^ (2 * 2)) ∧
    ((GeoBits.mk 0b0110 2).get_neighbor .East).get_neighbor .West = GeoBits.mk 0b0110 2 ∧
    ((GeoBits.mk 0b0110 2).get_neighbor .North).get_neighbor .South = GeoBits.mk 0b0110 2 :=
  ⟨⟨by decide, by decide, by decide⟩,
    (c5_neighbor_inverse ⟨0b0110, 2⟩ (by decide) (by decide) (by decide)).1
      ⟨by decide, by decide⟩,
    (c5_neighbor_inverse ⟨0b0110, 2⟩ (by decide) (by decide) (by decide)).2
      ⟨by decide, by decide⟩⟩

end Geohash

namespace Geohash

/-- Claim C7: for every (invariant-satisfying) GeoCode and every Direction,
`get_neighbor` preserves the precision; for East and West the latitude bits
(`bits &&& LAT_BITS`) are unchanged, for North and South the longitude bits
(`bits &&& LNG_BITS`) are unchanged, and the moved axis's active-bit-field
value changes by exactly one unit modulo the wrap within the active width. -/
theorem c7_neighbor_frame (g : GeoBits) (hp1 : 1 ≤ g.precision) (hp2 : g.precision ≤ 32)
    (hb : g.bits < 2 ^ (2 * g.precision)) :
    (∀ d : Direction, (g.get_neighbor d).precision = g.precision) ∧
    ((g.get_neighbor .East).bits &&& LAT_BITS = g.bits &&& LAT_BITS ∧
     (g.get_neighbor .West).bits &&& LAT_BITS = g.bits &&& LAT_BITS) ∧
    ((g.get_neighbor .North).bits &&& LNG_BITS = g.bits &&& LNG_BITS ∧
     (g.get_neighbor .South).bits &&& LNG_BITS = g.bits &&& LNG_BITS) ∧
    ((deinterleave64 (g.get_neighbor .East).bits).1 =
      ((deinterleave64 g.bits).1 + 1) % 2 ^ g.precision ∧
     (deinterleave64 (g.get_neighbor .West).bits).1 =
      ((deinterleave64 g.bits).1 + (2 ^ g.precision - 1)) % 2 ^ g.precision) ∧
    ((deinterleave64 (g.get_neighbor .North).bits).2 =
      ((deinterleave64 g.bits).2 + 1) % 2 ^ g.precision ∧
     (deinterleave64 (g.get_neighbor .South).bits).2 =
      ((deinterleave64 g.bits).2 + (2 ^ g.precision - 1)) % 2 ^ g.precision) := by
  have hp32 : (2 : ℕ) ^ g.precision ≤ 2 ^ 32 := Nat.pow_le_pow_right (by omega) (by omega)
  have hv : squash (g.bits >>> 1) < 2 ^ g.precision := squash_shr_lt_of_lt hb
  have hu : squash g.bits < 2 ^ g.precision := squash_lt_of_lt hb
  have hmodlt : ∀ a : ℕ, a % 2 ^ g.precision < 2 ^ 32 :=
    fun a => lt_of_lt_of_le (Nat.mod_lt a (by positivity)) hp32
  refine ⟨fun d => by cases d <;> rfl, ⟨?_, ?_⟩, ⟨?_, ?_⟩, ⟨?_, ?_⟩, ⟨?_, ?_⟩⟩
  · show (g.move_x false).bits &&& LAT_BITS = g.bits &&& LAT_BITS
    rw [move_x_east g hp2 hb]
    exact moved_x_and_LAT _ _
  · show (g.move_x true).bits &&& LAT_BITS = g.bits &&& LAT_BITS
    rw [move_x_west g hp2 hb]
    exact moved_x_and_LAT _ _
  · show (g.move_y false).bits &&& LNG_BITS = g.bits &&& LNG_BITS
    rw [move_y_north g hp2 hb]
    exact moved_y_and_LNG _ _
  · show (g.move_y true).bits &&& LNG_BITS = g.bits &&& LNG_BITS
    rw [move_y_south g hp2 hb]
    exact moved_y_and_LNG _ _
  · show (deinterleave64 (g.move_x false).bits).1 = _
    rw [move_x_east g hp2 hb]
    show squash (_ >>> 1) = _
    rw [squash_shr_move_x (hmodlt _) g.bits]
    rfl
  · show (deinterleave64 (g.move_x true).bits).1 = _
    rw [move_x_west g hp2 hb]
    show squash (_ >>> 1) = _
    rw [squash_shr_move_x (hmodlt _) g.bits]
    rfl
  · show (deinterleave64 (g.move_y false).bits).2 = _
    rw [move_y_north g hp2 hb]
    show squash _ = _
    rw [squash_move_y (hmodlt _) g.bits]
    rfl
  · show (deinterleave64 (g.move_y true).bits).2 = _
    rw [move_y_south g hp2 hb]
    show squash _ = _
    rw [squash_move_y (hmodlt _) g.bits]
    rfl

/-- Claim C7 witness: the frame conditions at `{bits = 0b0110, precision = 2}`. -/
theorem c7_witness : (1 ≤ (2 : ℕ) ∧ (2 : ℕ) ≤ 32 ∧ (0b0110 : ℕ) < 2 ^ (2 * 2)) ∧
    ((∀ d : Direction, ((GeoBits.mk 0b0110 2).get_neighbor d).precision = 2) ∧
     (((GeoBits.mk 0b0110 2).get_neighbor .East).bits &&& LAT_BITS =
        (0b0110 : ℕ) &&& LAT_BITS ∧
      ((GeoBits.mk 0b0110 2).get_neighbor .West).bits &&& LAT_BITS =
        (0b0110 : ℕ) &&& LAT_BITS) ∧
     (((GeoBits.mk 0b0110 2).get_neighbor .North).bits &&& LNG_BITS =
        (0b0110 : ℕ) &&& LNG_BITS ∧
      ((GeoBits.mk 0b0110 2).get_neighbor .South).bits &&& LNG_BITS =
        (0b0110 : ℕ) &&& LNG_BITS) ∧
     ((deinterleave64 ((GeoBits.mk 0b0110 2).get_neighbor .East).bits).1 =
        ((deinterleave64 0b0110).1 + 1) % 2 ^ 2 ∧
      (deinterleave64 ((GeoBits.mk 0b0110 2).get_neighbor .West).bits).1 =
        ((deinterleave64 0b0110).1 + (2 ^ 2 - 1)) % 2 ^ 2) ∧
     ((deinterleave64 ((GeoBits.mk 0b0110 2).get_neighbor .North).bits).2 =
        ((deinterleave64 0b0110).2 + 1) % 2 ^ 2 ∧
      (deinterleave64 ((GeoBits.mk 0b0110 2).get_neighbor .South).bits).2 =
        ((deinterleave64 0b0110).2 + (2 ^ 2 - 1)) % 2 ^ 2)) :=
  ⟨⟨by decide, by decide, by decide⟩,
    c7_neighbor_frame ⟨0b0110, 2⟩ (by decide) (by decide) (by decide)⟩

end Geohash

namespace Geohash

/-- Claim C6: `Coord::new` fails exactly when latitude is outside `[-90, 90)`
or longitude is outside `[-180, 180)` (NaN and infinities are outside every
range) — in particular at latitude 90, latitude -90.0001, longitude 180,
longitude -180.0001 and NaN — and `GeoBits::from` fails exactly when the
precision is outside `[1, 32]`, in particular at 0 and 33; no other input
fails. -/
theorem c6_boundary_validation :
    (∀ lat lng : FP, (Coord.new lat lng).isSome = true ↔
      (FP.inHalfOpen (-90) 90 lat ∧ FP.inHalfOpen (-180) 180 lng)) ∧
    Coord.new (.finite (Q.intVal 90)) (.finite (Q.intVal 0)) = none ∧
    Coord.new (.finite (Q.frac (-900001) 10000)) (.finite (Q.intVal 0)) = none ∧
    Coord.new (.finite (Q.intVal 0)) (.finite (Q.intVal 180)) = none ∧
    Coord.new (.finite (Q.intVal 0)) (.finite (Q.frac (-1800001) 10000)) = none ∧
    Coord.new .nan (.finite (Q.intVal 0)) = none ∧
    Coord.new (.finite (Q.intVal 0)) .nan = none ∧
    Coord.new .posInf (.finite (Q.intVal 0)) = none ∧
    (∀ (c : Coord) (p : ℕ), (GeoBits.fromCoord c p).isSome = true ↔ (1 ≤ p ∧ p ≤ 32)) ∧
    (∀ c : Coord, GeoBits.fromCoord c 0 = none ∧ GeoBits.fromCoord c 33 = none) := by
  refine ⟨?_, by decide, by decide, by decide, by decide, by decide, by decide, by decide,
    ?_, fun c => ⟨rfl, rfl⟩⟩
  · intro lat lng
    rw [← containsF_LAT_iff, ← containsF_LNG_iff]
    unfold Coord.new
    by_cases h1 : LAT_RNG.containsF lat = true <;> by_cases h2 : LNG_RNG.containsF lng = true <;>
      simp [h1, h2]
  · intro c p
    unfold GeoBits.fromCoord
    by_cases h : (decide (p = 0) || decide (p > 32)) = true
    · rw [if_pos h]
      simp only [Bool.or_eq_true, decide_eq_true_eq] at h
      simp only [Option.isSome_none, Bool.false_eq_true, false_iff]
      omega
    · rw [if_neg h]
      simp only [Bool.or_eq_true, decide_eq_true_eq] at h
      push_neg at h
      simp only [Option.isSome_some, true_iff]
      omega

end Geohash

namespace Geohash

set_option maxRecDepth 8192 in
/-- Claim C1: the round-trip containment `decode(encode(c, p)).contains(c)`
fails on the code.  The largest f32 latitude below 90 (90 - 2^-17 =
11796479/131072) is a valid coordinate, yet `90 - 2^-17 - (-90)` rounds to
180 in f32, the normalized value becomes exactly 1.0, and encoding at
precision 1 yields latitude cell index 2 (bits 6) — out of the two cells of
that precision.  The decoded area is `[90, 180) x [0, 180)`, which does not
contain the coordinate. -/
theorem c1_roundtrip_containment_fails :
    (Coord.new (.finite (Q.frac 11796479 131072)) (.finite (Q.intVal 0))).bind
      (fun c => GeoBits.fromCoord c 1) = some ⟨6, 1⟩ ∧
    (GeoBits.toArea ⟨6, 1⟩).contains
      ⟨.finite (Q.frac 11796479 131072), .finite (Q.intVal 0)⟩ = false ∧
    (GeoBits.toArea ⟨6, 1⟩).lat_range =
      ⟨.finite (Q.intVal 90), .finite (Q.intVal 180)⟩ :=
  ⟨by decide, by decide, by decide⟩

set_option maxRecDepth 8192 in
/-- Claim C3: encoding `Coordinate(25.006, 121.46)` (the nearest f32 values
to those decimal literals) at precision 15 yields bits
`0b111001100010110101100011101010`, and decoding that GeoCode yields an
Area containing the coordinate. -/
theorem c3_concrete_scenario :
    GeoBits.fromCoord ⟨rnd32 (Q.frac 25006 1000), rnd32 (Q.frac 12146 100)⟩ 15 =
      some ⟨0b111001100010110101100011101010, 15⟩ ∧
    (GeoBits.toArea ⟨0b111001100010110101100011101010, 15⟩).contains
      ⟨rnd32 (Q.frac 25006 1000), rnd32 (Q.frac 12146 100)⟩ = true :=
  ⟨by decide, by decide⟩

set_option maxRecDepth 8192 in
/-- Claim C8: the active-bit invariant `bits < 2^(2 * precision)` is violated
by encoding.  The valid boundary latitude 90 - 2^-17 at precision 1 encodes
to bits 6, and `6 < 2^2` is false. -/
theorem c8_invariant_violated_by_encode :
    (Coord.new (.finite (Q.frac 11796479 131072)) (.finite (Q.intVal 0))).bind
      (fun c => GeoBits.fromCoord c 1) = some ⟨6, 1⟩ ∧
    ¬((6 : ℕ) < 2 ^ (2 * 1)) :=
  ⟨by decide, by decide⟩

set_option maxRecDepth 8192 in
/-- Claim C9: decoding does not always yield a non-degenerate rectangle of
exact width.  At the documented maximum precision 32 the code's
`1u32 << 32` overflows (release semantics mask the shift, giving
`float_scale = 1`), so `{bits = 0, precision = 32}` decodes to a latitude
range `[-90, 90)` of width 180 instead of `180 / 2^32`; and at precision 25
the cell `{bits = 3 * 2^48}` (both fields `2^24`) decodes to a degenerate
latitude range whose start equals its stop, because `2^24 + 1` is not an
f32 value. -/
theorem c9_decode_width_broken :
    (GeoBits.toArea ⟨0, 32⟩).lat_range =
      ⟨.finite (Q.intVal (-90)), .finite (Q.intVal 90)⟩ ∧
    (GeoBits.toArea ⟨0, 32⟩).lat_range.length = .finite (Q.intVal 180) ∧
    (180 : ℚ) ≠ 180 / 2 ^ 32 ∧
    (GeoBits.toArea ⟨3 * 2 ^ 48, 25⟩).lat_range.start =
      (GeoBits.toArea ⟨3 * 2 ^ 48, 25⟩).lat_range.stop :=
  ⟨by decide, by decide, by norm_num, by decide⟩

end Geohash
